import Mathlib

/-!
Verification development for `ccm.py` (Core Contact Manager).

The Python source is shallowly embedded below:

* `CoreContact`, `ContactState`, `CoreContactPlan` mirror the classes of the
  same names.  Python `float` fields (`loss`) are modelled as exact rationals;
  no verified property depends on floating-point rounding.
* `CoreContact` defines neither `__eq__` nor `__hash__`, so the Python dict
  `CoreContactPlan.contacts` compares keys by object identity.  A dict key is
  therefore modelled as a `ContactObj`: the contact's field values (`val`)
  together with an object identity (`oid`); `dictGet`/`dictSet` compare keys
  by `oid` exactly as CPython compares such keys by `id()`.
* Plan-file lines are lists of characters; `pyStrip`, `pySplit`, `pyInt` and
  `pyFloat` model `str.strip()`, `str.split()`, `int()` and `float()` on the
  whitespace-free tokens produced by `split` (sign plus digits for `int`,
  sign/digits/point/exponent for `float`; exotic acceptances such as
  underscore separators or `inf`/`nan` are not modelled, and no claim
  depends on them).
* The `while True:` event loop of the script is embedded as `loopIter` (one
  pass through the loop body) and `loopRun` (fuel-indexed iteration).  The
  gRPC side effects are abstracted: `edit` is the fallible
  `core.edit_link` call (an `.error` result models a raised exception, which
  the script does not catch), and the in-place mutation of `link.options`
  is modelled by updating the links list at the index found by
  `find_link_idx`.  Every externally visible action of the loop body is
  recorded in a `TickEvent` trace (the `print` calls and the RPC calls).
-/

/-- Contact state enumeration (`ContactState` in the source). -/
inductive ContactState where
  | PRE
  | LIVE
  | POST
deriving DecidableEq

/-- `CoreContact`: the field values of one parsed contact line.  `delay` and
`jitter` are produced by `int()` in `from_string`, hence integers; `loss` is
produced by `float()` and is modelled as an exact rational. -/
structure CoreContact where
  timespan : Int × Int
  nodes : Int × Int
  bw : Int
  loss : ℚ
  delay : Int
  jitter : Int
deriving DecidableEq, Inhabited

/-- A `CoreContact` as a Python dict key: the class defines no `__eq__` or
`__hash__`, so CPython keys the dict by object identity.  `oid` models
`id(obj)`; `load` hands out fresh `oid`s, one per parsed line. -/
structure ContactObj where
  oid : Nat
  val : CoreContact
deriving DecidableEq, Inhabited

/-- The `contacts` dict of a plan: key-value pairs in insertion order. -/
abbrev ContactDict := List (ContactObj × ContactState)

/-- Python dict lookup `d[k]` for identity-keyed `CoreContact` keys: the value
of the (unique) entry whose key has the same identity. -/
def dictGet : ContactDict → ContactObj → Option ContactState
  | [], _ => none
  | p :: rest, k => if p.1.oid == k.oid then some p.2 else dictGet rest k

/-- Python dict assignment `d[k] = v` for identity-keyed `CoreContact` keys:
update the entry with the same identity if present, else append. -/
def dictSet (d : ContactDict) (k : ContactObj) (v : ContactState) : ContactDict :=
  if d.any (fun p => p.1.oid == k.oid) then
    d.map (fun p => if p.1.oid == k.oid then (p.1, v) else p)
  else d ++ [(k, v)]

/-- The oids of a dict are pairwise distinct (object identities are); this is
the well-formedness invariant every dict built by `load` satisfies. -/
def oidsNodup (d : ContactDict) : Prop :=
  (d.map (fun p => p.1.oid)).Nodup

instance (d : ContactDict) : Decidable (oidsNodup d) := by
  unfold oidsNodup; infer_instance

/-! ### String layer: `str.strip`, `str.split`, `int`, `float` -/

/-- Python whitespace (`str.isspace` characters relevant to `split`/`strip`). -/
def pyIsSpace (c : Char) : Bool :=
  c == ' ' || c == '\t' || c == '\n' || c == '\r' || c == '\x0b' || c == '\x0c'

/-- `str.strip()`. -/
def pyStrip (s : List Char) : List Char :=
  ((s.dropWhile pyIsSpace).reverse.dropWhile pyIsSpace).reverse

/-- Worker for `pySplit`: `acc` holds the reversed current token. -/
def splitAux : List Char → List Char → List (List Char)
  | [], acc => if acc.isEmpty then [] else [acc.reverse]
  | c :: cs, acc =>
    if pyIsSpace c then
      if acc.isEmpty then splitAux cs [] else acc.reverse :: splitAux cs []
    else splitAux cs (c :: acc)

/-- `str.split()` with no argument: split on whitespace runs, no empty tokens. -/
def pySplit (s : List Char) : List (List Char) :=
  splitAux s []

/-- Digits-only numeral value (callers check digit-ness). -/
def natOfDigits : List Char → Nat :=
  List.foldl (fun n c => n * 10 + (c.toNat - 48)) 0

/-- A non-empty all-digit token, or failure. -/
def digitsToNat (cs : List Char) : Option Nat :=
  if cs.isEmpty || !(cs.all Char.isDigit) then none else some (natOfDigits cs)

/-- Python `int(token)`: optional surrounding whitespace, optional sign,
non-empty digit run. -/
def pyInt (s : List Char) : Option Int :=
  match pyStrip s with
  | '+' :: ds => (digitsToNat ds).map (fun n => (n : Int))
  | '-' :: ds => (digitsToNat ds).map (fun n => -(n : Int))
  | ds => (digitsToNat ds).map (fun n => (n : Int))

/-- Exponent suffix of a `float` literal (after the `e`/`E`): scale the
mantissa `num / den` by `10 ^ e` on the proper side. -/
def expPart (num : Int) (den : Nat) (rest : List Char) : Option ℚ :=
  let (epos, rest') :=
    match rest with
    | '+' :: r => (true, r)
    | '-' :: r => (false, r)
    | r => (true, r)
  if rest'.isEmpty || !(rest'.all Char.isDigit) then none
  else
    let e := natOfDigits rest'
    some (if epos then mkRat (num * 10 ^ e) den else mkRat num (den * 10 ^ e))

/-- Python `float(token)` on decimal literals: optional sign, digits with an
optional point (at least one digit overall), optional exponent.  The value is
the exact rational `±(ip.fp) · 10^(±e)`. -/
def pyFloat (s : List Char) : Option ℚ :=
  let s₀ := pyStrip s
  let (neg, s₁) :=
    match s₀ with
    | '+' :: rest => (false, rest)
    | '-' :: rest => (true, rest)
    | rest => (false, rest)
  let ip := s₁.takeWhile Char.isDigit
  let s₂ := s₁.dropWhile Char.isDigit
  let (fp, s₃) :=
    match s₂ with
    | '.' :: rest => (rest.takeWhile Char.isDigit, rest.dropWhile Char.isDigit)
    | rest => (([] : List Char), rest)
  if ip.isEmpty && fp.isEmpty then none
  else
    let mag : Int := (natOfDigits ip : Int) * 10 ^ fp.length + natOfDigits fp
    let num : Int := if neg then -mag else mag
    match s₃ with
    | [] => some (mkRat num (10 ^ fp.length))
    | 'e' :: rest => expPart num (10 ^ fp.length) rest
    | 'E' :: rest => expPart num (10 ^ fp.length) rest
    | _ => none

/-! ### `CoreContact.from_string` and `CoreContactPlan.load` -/

/-- The eight whitespace-separated fields of a contact directive, parsed in the
order the source parses them (`int`,`int`,`int`,`int`,`int`,`float`,`int`,`int`).
`none` models the `ValueError` raised by `int()`/`float()`. -/
def parseFields (fs : List (List Char)) : Option CoreContact :=
  match fs with
  | [f0, f1, f2, f3, f4, f5, f6, f7] =>
    match pyInt f0, pyInt f1, pyInt f2, pyInt f3, pyInt f4, pyFloat f5, pyInt f6, pyInt f7 with
    | some t0, some t1, some n1, some n2, some bw, some loss, some dl, some jt =>
      some ⟨(t0, t1), (n1, n2), bw, loss, dl, jt⟩
    | _, _, _, _, _, _, _, _ => none
  | _ => none

/-- `CoreContact.from_string`: strip, drop a literal `a contact` prefix, split;
raise (`.error` carrying the offending text) unless exactly 8 fields all
parse.  The source checks the field count before parsing, as here. -/
def CoreContact.from_string (line : List Char) : Except (List Char) CoreContact :=
  let l₁ := pyStrip line
  let l₂ := if ("a contact".toList).isPrefixOf l₁ then pyStrip (l₁.drop 9) else l₁
  let fields := pySplit l₂
  if fields.length ≠ 8 then .error l₂
  else
    match parseFields fields with
    | some c => .ok c
    | none => .error l₂

/-- `CoreContactPlan`: the loop flag and the identity-keyed contacts dict. -/
structure CoreContactPlan where
  loop : Bool
  contacts : ContactDict
deriving DecidableEq

/-- The line loop of `CoreContactPlan.load`: dispatch each stripped line on its
token shape (`s loop <x>` with exactly 3 tokens; `a contact ...` with more
than 4 tokens); all other lines are ignored.  `fresh` is the next unused
object identity for a parsed contact. -/
def loadGo : List (List Char) → Bool → ContactDict → Nat →
    Except (List Char) (Bool × ContactDict)
  | [], lp, d, _ => .ok (lp, d)
  | line :: rest, lp, d, fresh =>
    let l := pyStrip line
    let fields := pySplit l
    if fields.length = 3 ∧ fields.getD 0 [] = "s".toList then
      if fields.getD 1 [] = "loop".toList then
        loadGo rest (fields.getD 2 [] = "1".toList : Bool) d fresh
      else loadGo rest lp d fresh
    else if 4 < fields.length ∧ fields.getD 0 [] = "a".toList then
      if fields.getD 1 [] = "contact".toList then
        match CoreContact.from_string l with
        | .error e => .error e
        | .ok c => loadGo rest lp (dictSet d ⟨fresh, c⟩ .PRE) (fresh + 1)
      else loadGo rest lp d fresh
    else loadGo rest lp d fresh

/-- `CoreContactPlan.load` over the list of lines of the plan file.  The
constructor initialises `loop = False`; `load` then rebuilds the dict and may
set the flag.  An uncaught `ValueError` from a malformed contact directive
(`.error`) aborts the load. -/
def CoreContactPlan.load (lines : List (List Char)) : Except (List Char) CoreContactPlan :=
  (loadGo lines false [] 0).map (fun p => ⟨p.1, p.2⟩)

/-! ### Temporal queries of `CoreContactPlan` -/

/-- `CoreContactPlan.at`: contacts whose timespan contains `time`. -/
def CoreContactPlan.at (cp : CoreContactPlan) (time : Int) :
    List (ContactObj × ContactState) :=
  cp.contacts.filter (fun p => p.1.val.timespan.1 ≤ time && time ≤ p.1.val.timespan.2)

/-- `CoreContactPlan.need_activation`: the `at time` contacts still in `PRE`. -/
def CoreContactPlan.need_activation (cp : CoreContactPlan) (time : Int) :
    List (ContactObj × ContactState) :=
  (cp.at time).filter (fun p => p.2 == ContactState.PRE)

/-- `CoreContactPlan.need_deactivation`: `LIVE` contacts whose end has been
reached or passed. -/
def CoreContactPlan.need_deactivation (cp : CoreContactPlan) (time : Int) :
    List (ContactObj × ContactState) :=
  cp.contacts.filter (fun p => time ≥ p.1.val.timespan.2 && p.2 == ContactState.LIVE)

/-- Python `min` over a possibly-empty list, as used by
`next_activation`/`next_deactivation` (which return `None` on empty). -/
def listMin : List Int → Option Int
  | [] => none
  | x :: xs =>
    match listMin xs with
    | none => some x
    | some m => some (min x m)

/-- `CoreContactPlan.next_activation`: least start time `≥ time` of a `PRE`
contact, if any. -/
def CoreContactPlan.next_activation (cp : CoreContactPlan) (time : Int) : Option Int :=
  listMin ((cp.contacts.filter
      (fun p => p.2 == ContactState.PRE && p.1.val.timespan.1 ≥ time)).map
    (fun p => p.1.val.timespan.1))

/-- `CoreContactPlan.next_deactivation`: least end time `≥ time` of a `LIVE`
contact, if any. -/
def CoreContactPlan.next_deactivation (cp : CoreContactPlan) (time : Int) : Option Int :=
  listMin ((cp.contacts.filter
      (fun p => p.2 == ContactState.LIVE && p.1.val.timespan.2 ≥ time)).map
    (fun p => p.1.val.timespan.2))

/-- `CoreContactPlan.reset`: every contact back to `PRE` (values only; the
keys, i.e. the contact objects, are unchanged). -/
def resetDict (d : ContactDict) : ContactDict :=
  d.map (fun p => (p.1, ContactState.PRE))

/-! ### Links and the Link Controller adapter -/

/-- Mutable options of a CORE link (`link.options`). -/
structure LinkOptions where
  bandwidth : Int
  delay : Int
  loss : ℚ
  jitter : Int
deriving DecidableEq, Inhabited

/-- A CORE link as the loop uses it: endpoint node ids plus options. -/
structure Link where
  node1_id : Int
  node2_id : Int
  options : LinkOptions
deriving DecidableEq, Inhabited

/-- `find_link`: first link joining the two nodes, in either orientation. -/
def find_link (links : List Link) (node1 node2 : Int) : Option Link :=
  links.find? (fun l =>
    (l.node1_id == node1 && l.node2_id == node2) ||
    (l.node1_id == node2 && l.node2_id == node1))

/-- Index form of `find_link`: Python returns the list element itself and the
loop mutates it in place; we return its index so the mutation can be modelled
as `List.set`. -/
def find_link_idx (links : List Link) (node1 node2 : Int) : Option Nat :=
  match links with
  | [] => none
  | l :: rest =>
    if (l.node1_id == node1 && l.node2_id == node2) ||
       (l.node1_id == node2 && l.node2_id == node1) then some 0
    else (find_link_idx rest node1 node2).map (fun i => i + 1)

/-! ### The event loop -/

/-- Observable actions of one pass through the loop body, in program order:
the `Activating`/`Deactivating` prints, the link-not-found warnings, the
`edit_link` RPC calls, and the state writes. -/
inductive TickEvent where
  | activating (oid : Nat)
  | warnedA (oid : Nat)
  | editA (oid : Nat)
  | activated (oid : Nat)
  | deactivating (oid : Nat)
  | warnedD (oid : Nat)
  | editD (oid : Nat)
  | deactivated (oid : Nat)
deriving DecidableEq

/-- Events produced by the activation `for` loop. -/
def isActivationEvent : TickEvent → Bool
  | .activating _ | .warnedA _ | .editA _ | .activated _ => true
  | _ => false

/-- Events produced by the deactivation `for` loop. -/
def isDeactivationEvent : TickEvent → Bool
  | .deactivating _ | .warnedD _ | .editD _ | .deactivated _ => true
  | _ => false

/-- The endpoint pair of a link (what `find_link` inspects). -/
def nodePair (l : Link) : Int × Int :=
  (l.node1_id, l.node2_id)

/-- The link at index `i` after the activation assignments of source lines
171-174: all four option fields set from the contact. -/
def activatedLink (links : List Link) (i : Nat) (c : CoreContact) : Link :=
  ⟨(links.getD i default).node1_id, (links.getD i default).node2_id,
    ⟨c.bw, c.delay, c.loss, c.jitter⟩⟩

/-- The link at index `i` after the deactivation assignment of source line
187: only `loss` overwritten with 100. -/
def deactivatedLink (links : List Link) (i : Nat) : Link :=
  ⟨(links.getD i default).node1_id, (links.getD i default).node2_id,
    ⟨(links.getD i default).options.bandwidth, (links.getD i default).options.delay,
      100, (links.getD i default).options.jitter⟩⟩

/-- The activation `for` loop (source lines 163-177): for each snapshot entry,
print, look the link up; on a miss warn and `continue` (skipping both the RPC
and the state write); otherwise set all four option fields, call `edit_link`
(a raised exception — `.error` — aborts the whole loop body with the final
component `true`), then write `LIVE`. -/
def activationPass (edit : Link → Except Unit Unit) :
    List (ContactObj × ContactState) → List Link → ContactDict →
    List Link × ContactDict × List TickEvent × Bool
  | [], links, d => (links, d, [], false)
  | (c, _) :: rest, links, d =>
    match find_link_idx links c.val.nodes.1 c.val.nodes.2 with
    | none =>
      match activationPass edit rest links d with
      | (l', d', tr, cr) => (l', d', .activating c.oid :: .warnedA c.oid :: tr, cr)
    | some i =>
      match edit (activatedLink links i c.val) with
      | .error _ =>
        (links.set i (activatedLink links i c.val), d, [.activating c.oid, .editA c.oid], true)
      | .ok _ =>
        match activationPass edit rest (links.set i (activatedLink links i c.val))
            (dictSet d c .LIVE) with
        | (l', d', tr, cr) =>
          (l', d', .activating c.oid :: .editA c.oid :: .activated c.oid :: tr, cr)

/-- The deactivation `for` loop (source lines 179-189): same shape, but only
`loss` is overwritten (with 100) and the state write is `POST`. -/
def deactivationPass (edit : Link → Except Unit Unit) :
    List (ContactObj × ContactState) → List Link → ContactDict →
    List Link × ContactDict × List TickEvent × Bool
  | [], links, d => (links, d, [], false)
  | (c, _) :: rest, links, d =>
    match find_link_idx links c.val.nodes.1 c.val.nodes.2 with
    | none =>
      match deactivationPass edit rest links d with
      | (l', d', tr, cr) => (l', d', .deactivating c.oid :: .warnedD c.oid :: tr, cr)
    | some i =>
      match edit (deactivatedLink links i) with
      | .error _ =>
        (links.set i (deactivatedLink links i), d, [.deactivating c.oid, .editD c.oid], true)
      | .ok _ =>
        match deactivationPass edit rest (links.set i (deactivatedLink links i))
            (dictSet d c .POST) with
        | (l', d', tr, cr) =>
          (l', d', .deactivating c.oid :: .editD c.oid :: .deactivated c.oid :: tr, cr)

/-- Scheduler state: `cur_time` and the plan. -/
structure SchedState where
  curTime : Int
  plan : CoreContactPlan
deriving DecidableEq

/-- `min` over the defined values among the two `Option`al next-event times
(the list comprehension filtering out `None` at source line 157). -/
def minDefined : Option Int → Option Int → Option Int
  | some a, some b => some (min a b)
  | some a, none => some a
  | none, some b => some b
  | none, none => none

/-- Outcome of one pass through the `while True:` body. -/
inductive IterResult where
  | halted
  | looped (st : SchedState)
  | ticked (st : SchedState) (links : List Link) (tr : List TickEvent)
  | crashed (st : SchedState) (links : List Link) (tr : List TickEvent)
deriving DecidableEq

/-- One pass through the loop body (source lines 146-189).  If no activation
and no deactivation is pending: either loop (reset time and plan; the Python
condition is the truthiness of `cp.loop or args.loop`, where the argparse
value is `None` when the flag is absent) or break.  Otherwise sleep until the
nearest event time, make it current, run the activation pass and then the
deactivation pass; an uncaught `edit_link` exception yields `.crashed`. -/
def loopIter (argsLoop : Option Bool) (edit : Link → Except Unit Unit)
    (links : List Link) (st : SchedState) : IterResult :=
  if (st.plan.next_activation st.curTime).isNone &&
     (st.plan.next_deactivation st.curTime).isNone then
    if st.plan.loop || (argsLoop == some true) then
      .looped ⟨0, ⟨st.plan.loop, resetDict st.plan.contacts⟩⟩
    else .halted
  else
    match minDefined (st.plan.next_activation st.curTime)
        (st.plan.next_deactivation st.curTime) with
    | none => .halted
    | some t =>
      match activationPass edit (st.plan.need_activation t) links st.plan.contacts with
      | (links1, d1, tr1, cr1) =>
        if cr1 then .crashed ⟨t, ⟨st.plan.loop, d1⟩⟩ links1 tr1
        else
          match deactivationPass edit
              (CoreContactPlan.need_deactivation ⟨st.plan.loop, d1⟩ t) links1 d1 with
          | (links2, d2, tr2, cr2) =>
            if cr2 then .crashed ⟨t, ⟨st.plan.loop, d2⟩⟩ links2 (tr1 ++ tr2)
            else .ticked ⟨t, ⟨st.plan.loop, d2⟩⟩ links2 (tr1 ++ tr2)

/-- Where a run of the scheduler stands after a bounded number of loop
iterations: still running (fuel exhausted mid-loop), terminated normally
(`break` at "No more events"), or dead from an uncaught exception. -/
inductive RunOutcome where
  | running (st : SchedState) (links : List Link)
  | terminated (st : SchedState) (links : List Link)
  | crashedOut (st : SchedState) (links : List Link)
deriving DecidableEq

/-- Iterate the loop body `n` times (fuel-indexed unfolding of `while True`). -/
def loopRun (argsLoop : Option Bool) (edit : Link → Except Unit Unit) :
    Nat → List Link → SchedState → RunOutcome
  | 0, links, st => .running st links
  | n + 1, links, st =>
    match loopIter argsLoop edit links st with
    | .halted => .terminated st links
    | .looped st' => loopRun argsLoop edit n links st'
    | .ticked st' links' _ => loopRun argsLoop edit n links' st'
    | .crashed st' links' _ => .crashedOut st' links'

/-! ### Derived notions used by the stated properties -/

/-- Trace of an activation pass in which every link lookup fails: each due
contact produces its print and its warning, nothing else. -/
def warnTrace : List (ContactObj × ContactState) → List TickEvent
  | [] => []
  | (c, _) :: rest => .activating c.oid :: .warnedA c.oid :: warnTrace rest

/-- How one scheduler tick may change one contact's state: unchanged, one
step forward along PRE → LIVE → POST, or both steps in the same tick — in
which case the trace shows the contact was activated (reached `LIVE`) before
being deactivated, i.e. `LIVE` is never skipped. -/
def LifecycleStep (old new : Option ContactState) (tr : List TickEvent) (oid : Nat) : Prop :=
  new = old ∨
  (old = some .PRE ∧ new = some .LIVE) ∨
  (old = some .LIVE ∧ new = some .POST) ∨
  (old = some .PRE ∧ new = some .POST ∧
    TickEvent.activated oid ∈ tr ∧ TickEvent.deactivated oid ∈ tr)

/-! ### Concrete data for counterexamples and witnesses -/

/-- The spec's sample contact: `a contact 10 20 1 2 1000000 0.0 5 1`. -/
def demoContact : CoreContact :=
  ⟨(10, 20), (1, 2), 1000000, 0, 5, 1⟩

/-- The sample contact as the dict key created by parsing it once. -/
def demoObj : ContactObj :=
  ⟨0, demoContact⟩

/-- A one-contact plan with looping disabled. -/
def demoPlan : CoreContactPlan :=
  ⟨false, [(demoObj, .PRE)]⟩

/-- A link joining nodes 1 and 2. -/
def demoLink : Link :=
  ⟨1, 2, ⟨0, 0, 0, 0⟩⟩

/-- A second contact sharing `start = 10` with `demoObj`, on nodes 1 and 3. -/
def demoObjB : ContactObj :=
  ⟨1, ⟨(10, 30), (1, 3), 500000, 0, 7, 2⟩⟩

/-- A plan with two contacts sharing `start = 10`. -/
def demoPlan2 : CoreContactPlan :=
  ⟨false, [(demoObj, .PRE), (demoObjB, .PRE)]⟩

/-- Links for both node pairs of `demoPlan2`. -/
def demoLinks2 : List Link :=
  [⟨1, 2, ⟨0, 0, 0, 0⟩⟩, ⟨1, 3, ⟨0, 0, 0, 0⟩⟩]

/-- The sample contact directive as a plan-file line. -/
def demoLine : List Char :=
  "a contact 10 20 1 2 1000000 0.0 5 1".toList

/-! ### Helper lemmas: the identity-keyed dict -/

theorem dictGet_eq_of_oid_eq (d : ContactDict) {k k' : ContactObj}
    (h : k.oid = k'.oid) : dictGet d k = dictGet d k' := by
  induction d with
  | nil => rfl
  | cons p t ih => simp [dictGet, h, ih]

theorem dictGet_update_same (d : ContactDict) (k k' : ContactObj) (v : ContactState)
    (h : k'.oid = k.oid) (hany : d.any (fun p => p.1.oid == k.oid) = true) :
    dictGet (d.map (fun p => if p.1.oid == k.oid then (p.1, v) else p)) k' = some v := by
  induction d with
  | nil => simp at hany
  | cons p t ih =>
    simp only [List.any_cons, Bool.or_eq_true] at hany
    by_cases hp : p.1.oid = k.oid
    · simp [dictGet, hp, h]
    · have ht : (t.any fun p => p.1.oid == k.oid) = true := by
        rcases hany with hh | ht
        · exact absurd (by simpa using hh) hp
        · exact ht
      have hne : ¬p.1.oid = k'.oid := fun hh => hp (hh.trans h)
      simpa [dictGet, hp, hne] using ih ht

theorem dictGet_update_other (d : ContactDict) (k k' : ContactObj) (v : ContactState)
    (h : k'.oid ≠ k.oid) :
    dictGet (d.map (fun p => if p.1.oid == k.oid then (p.1, v) else p)) k' = dictGet d k' := by
  induction d with
  | nil => rfl
  | cons p t ih =>
    by_cases hp : p.1.oid = k.oid
    · have hne : ¬k.oid = k'.oid := fun hh => h hh.symm
      simpa [dictGet, hp, hne] using ih
    · by_cases hk : p.1.oid = k'.oid
      · simp [dictGet, hp, hk, h]
      · simpa [dictGet, hp, hk] using ih

theorem dictGet_append_single_same (d : ContactDict) (k k' : ContactObj)
    (v : ContactState) (h : k'.oid = k.oid)
    (hnone : ∀ p ∈ d, p.1.oid ≠ k.oid) :
    dictGet (d ++ [(k, v)]) k' = some v := by
  induction d with
  | nil => simp [dictGet, h]
  | cons p t ih =>
    have hp : ¬p.1.oid = k'.oid := fun hh => hnone p (by simp) (hh.trans h)
    simpa [dictGet, hp] using ih (fun q hq => hnone q (by simp [hq]))

theorem dictGet_append_single_other (d : ContactDict) (k k' : ContactObj)
    (v : ContactState) (h : k'.oid ≠ k.oid) :
    dictGet (d ++ [(k, v)]) k' = dictGet d k' := by
  induction d with
  | nil => simp [dictGet, Ne.symm h]
  | cons p t ih =>
    by_cases hp : p.1.oid = k'.oid <;> simp [dictGet, hp, ih]

theorem dictGet_dictSet_same (d : ContactDict) (k k' : ContactObj) (v : ContactState)
    (h : k'.oid = k.oid) : dictGet (dictSet d k v) k' = some v := by
  unfold dictSet
  by_cases hany : d.any (fun p => p.1.oid == k.oid) = true
  · simpa [hany] using dictGet_update_same d k k' v h hany
  · have hnone : ∀ p ∈ d, p.1.oid ≠ k.oid := by
      intro p hp hc
      exact hany (List.any_eq_true.2 ⟨p, hp, by simp [hc]⟩)
    simpa [hany] using dictGet_append_single_same d k k' v h hnone

theorem dictGet_dictSet_other (d : ContactDict) (k k' : ContactObj) (v : ContactState)
    (h : k'.oid ≠ k.oid) : dictGet (dictSet d k v) k' = dictGet d k' := by
  unfold dictSet
  by_cases hany : d.any (fun p => p.1.oid == k.oid) = true
  · simpa [hany] using dictGet_update_other d k k' v h
  · simpa [hany] using dictGet_append_single_other d k k' v h

theorem mem_dictSet_same_val (d : ContactDict) (c k : ContactObj) (v : ContactState)
    (h : (k, v) ∈ d) : (k, v) ∈ dictSet d c v := by
  unfold dictSet
  by_cases hany : d.any (fun p => p.1.oid == c.oid) = true
  · simp only [hany, if_true]
    refine List.mem_map.2 ⟨(k, v), h, ?_⟩
    by_cases hk : k.oid = c.oid <;> simp [hk]
  · simp only [hany, if_false]
    exact List.mem_append_left _ h

theorem dictGet_of_mem_nodup {d : ContactDict} (hnd : oidsNodup d)
    {k : ContactObj} {s : ContactState} (h : (k, s) ∈ d) : dictGet d k = some s := by
  induction d with
  | nil => simp at h
  | cons p t ih =>
    unfold oidsNodup at hnd
    simp only [List.map_cons, List.nodup_cons] at hnd
    rcases List.mem_cons.mp h with heq | hmem
    · subst heq
      simp [dictGet]
    · have hne : ¬p.1.oid = k.oid := by
        intro hh
        exact hnd.1 (hh ▸ List.mem_map.2 ⟨(k, s), hmem, rfl⟩)
      simpa [dictGet, hne] using ih hnd.2 hmem

theorem dictSet_map_oid (d : ContactDict) (k : ContactObj) (v : ContactState)
    (h : k.oid ∈ d.map (fun p => p.1.oid)) :
    (dictSet d k v).map (fun p => p.1.oid) = d.map (fun p => p.1.oid) := by
  have hany : d.any (fun p => p.1.oid == k.oid) = true := by
    rcases List.mem_map.mp h with ⟨p, hp, hpk⟩
    exact List.any_eq_true.2 ⟨p, hp, by simp [hpk]⟩
  unfold dictSet
  simp only [hany, if_true, List.map_map]
  refine List.map_congr_left ?_
  intro p _
  by_cases hp : p.1.oid = k.oid <;> simp [hp]

/-! ### Helper lemmas: `listMin`, next-event times, `find_link` -/

theorem listMin_eq_none {l : List Int} (h : listMin l = none) : l = [] := by
  cases l with
  | nil => rfl
  | cons a as =>
    exfalso
    cases hm : listMin as <;> simp [listMin, hm] at h

theorem listMin_le {l : List Int} {v : Int} (h : listMin l = some v) :
    ∀ x ∈ l, v ≤ x := by
  induction l generalizing v with
  | nil => simp [listMin] at h
  | cons a as ih =>
    intro x hx
    cases hm : listMin as with
    | none =>
      have hnil := listMin_eq_none hm
      subst hnil
      simp [listMin] at h
      simp at hx
      omega
    | some m =>
      simp only [listMin] at h
      rw [hm] at h
      have hv : min a m = v := Option.some.inj h
      rcases List.mem_cons.mp hx with rfl | hmem
      · exact hv ▸ min_le_left _ _
      · exact le_trans (hv ▸ min_le_right _ _) (ih hm x hmem)

theorem listMin_mem {l : List Int} {v : Int} (h : listMin l = some v) : v ∈ l := by
  induction l generalizing v with
  | nil => simp [listMin] at h
  | cons a as ih =>
    cases hm : listMin as with
    | none =>
      simp [listMin, hm] at h
      simp [← h]
    | some m =>
      simp only [listMin] at h
      rw [hm] at h
      have hv : min a m = v := Option.some.inj h
      rcases le_total a m with hh | hh
      · rw [← hv, min_eq_left hh]
        exact List.mem_cons_self a as
      · rw [← hv, min_eq_right hh]
        exact List.mem_cons_of_mem a (ih hm)

theorem next_deactivation_ge {cp : CoreContactPlan} {t v : Int}
    (h : cp.next_deactivation t = some v) : t ≤ v := by
  unfold CoreContactPlan.next_deactivation at h
  have hm := listMin_mem h
  rcases List.mem_map.mp hm with ⟨p, hp, hv⟩
  have hc := (List.mem_filter.mp hp).2
  simp only [Bool.and_eq_true, decide_eq_true_eq, beq_iff_eq] at hc
  omega

theorem minDefined_bothNone {a b : Option Int} {t : Int}
    (h : minDefined a b = some t) : (a.isNone && b.isNone) = false := by
  cases a <;> cases b <;> simp_all [minDefined]

theorem find_link_idx_eq_none_iff (links : List Link) (a b : Int) :
    find_link_idx links a b = none ↔ find_link links a b = none := by
  induction links with
  | nil => simp [find_link_idx, find_link]
  | cons l rest ih =>
    by_cases hl : ((l.node1_id == a && l.node2_id == b) ||
        (l.node1_id == b && l.node2_id == a)) = true
    · simp [find_link_idx, find_link, List.find?, hl]
    · simp only [Bool.not_eq_true] at hl
      simp [find_link_idx, find_link, List.find?, hl] at ih ⊢
      exact ih

/-! ### Helper lemmas: the passes preserve link endpoints -/

theorem map_set_same {α β : Type} (f : α → β) (l : List α) (i : Nat) (a dflt : α)
    (h : f a = f (l.getD i dflt)) (hi : i < l.length) :
    (l.set i a).map f = l.map f := by
  induction l generalizing i with
  | nil => simp at hi
  | cons x xs ih =>
    cases i with
    | zero =>
      simp only [List.getD_cons_zero] at h
      simp [h]
    | succ n =>
      simp only [List.getD_cons_succ] at h
      simp only [List.length_cons, Nat.succ_lt_succ_iff] at hi
      simp [List.set, ih n h hi]

theorem find_link_idx_lt {links : List Link} {a b : Int} {i : Nat}
    (h : find_link_idx links a b = some i) : i < links.length := by
  induction links generalizing i with
  | nil => simp [find_link_idx] at h
  | cons l rest ih =>
    simp only [find_link_idx] at h
    split at h
    · injection h with h
      subst h
      simp
    · rw [Option.map_eq_some'] at h
      obtain ⟨j, hj, hji⟩ := h
      subst hji
      simpa using Nat.succ_lt_succ (ih hj)

theorem find_link_idx_congr {links links' : List Link}
    (h : links.map nodePair = links'.map nodePair) (a b : Int) :
    find_link_idx links a b = find_link_idx links' a b := by
  induction links generalizing links' with
  | nil =>
    cases links' with
    | nil => rfl
    | cons => simp at h
  | cons l rest ih =>
    cases links' with
    | nil => simp at h
    | cons l' rest' =>
      simp only [List.map_cons, List.cons.injEq] at h
      obtain ⟨h1, h2⟩ := h
      have hn1 : l.node1_id = l'.node1_id := congrArg Prod.fst h1
      have hn2 : l.node2_id = l'.node2_id := congrArg Prod.snd h1
      simp only [find_link_idx, hn1, hn2, ih h2]

theorem map_nodePair_set_activated (links : List Link) {i : Nat} (c : CoreContact)
    (hi : i < links.length) :
    (links.set i (activatedLink links i c)).map nodePair = links.map nodePair :=
  map_set_same nodePair links i _ default rfl hi

theorem map_nodePair_set_deactivated (links : List Link) {i : Nat}
    (hi : i < links.length) :
    (links.set i (deactivatedLink links i)).map nodePair = links.map nodePair :=
  map_set_same nodePair links i _ default rfl hi

theorem activationPass_map_nodePair (edit : Link → Except Unit Unit)
    (snapshot : List (ContactObj × ContactState)) :
    ∀ (links : List Link) (d : ContactDict) (links' : List Link) (d' : ContactDict)
      (tr : List TickEvent) (cr : Bool),
      activationPass edit snapshot links d = (links', d', tr, cr) →
      links'.map nodePair = links.map nodePair := by
  induction snapshot with
  | nil =>
    intro links d links' d' tr cr hres
    simp only [activationPass, Prod.mk.injEq] at hres
    rw [← hres.1]
  | cons p rest ih =>
    intro links d links' d' tr cr hres
    obtain ⟨c, s⟩ := p
    simp only [activationPass] at hres
    split at hres
    case _ hfl =>
      rcases hrec : activationPass edit rest links d with ⟨l₀, d₀, tr₀, cr₀⟩
      rw [hrec] at hres
      simp only [Prod.mk.injEq] at hres
      exact hres.1 ▸ ih links d l₀ d₀ tr₀ cr₀ hrec
    case _ i hfl =>
      have hi := find_link_idx_lt hfl
      split at hres
      case _ e hedit =>
        simp only [Prod.mk.injEq] at hres
        rw [← hres.1]
        exact map_nodePair_set_activated links c.val hi
      case _ u hedit =>
        rcases hrec : activationPass edit rest (links.set i (activatedLink links i c.val))
            (dictSet d c .LIVE) with ⟨l₀, d₀, tr₀, cr₀⟩
        rw [hrec] at hres
        simp only [Prod.mk.injEq] at hres
        rw [hres.1] at hrec
        have hmap := ih _ _ _ _ _ _ hrec
        rw [hmap, map_nodePair_set_activated links c.val hi]

theorem deactivationPass_map_nodePair (edit : Link → Except Unit Unit)
    (snapshot : List (ContactObj × ContactState)) :
    ∀ (links : List Link) (d : ContactDict) (links' : List Link) (d' : ContactDict)
      (tr : List TickEvent) (cr : Bool),
      deactivationPass edit snapshot links d = (links', d', tr, cr) →
      links'.map nodePair = links.map nodePair := by
  induction snapshot with
  | nil =>
    intro links d links' d' tr cr hres
    simp only [deactivationPass, Prod.mk.injEq] at hres
    rw [← hres.1]
  | cons p rest ih =>
    intro links d links' d' tr cr hres
    obtain ⟨c, s⟩ := p
    simp only [deactivationPass] at hres
    split at hres
    case _ hfl =>
      rcases hrec : deactivationPass edit rest links d with ⟨l₀, d₀, tr₀, cr₀⟩
      rw [hrec] at hres
      simp only [Prod.mk.injEq] at hres
      exact hres.1 ▸ ih links d l₀ d₀ tr₀ cr₀ hrec
    case _ i hfl =>
      have hi := find_link_idx_lt hfl
      split at hres
      case _ e hedit =>
        simp only [Prod.mk.injEq] at hres
        rw [← hres.1]
        exact map_nodePair_set_deactivated links hi
      case _ u hedit =>
        rcases hrec : deactivationPass edit rest (links.set i (deactivatedLink links i))
            (dictSet d c .POST) with ⟨l₀, d₀, tr₀, cr₀⟩
        rw [hrec] at hres
        simp only [Prod.mk.injEq] at hres
        rw [hres.1] at hrec
        have hmap := ih _ _ _ _ _ _ hrec
        rw [hmap, map_nodePair_set_deactivated links hi]

/-! ### Helper lemmas: traces and dict evolution of the two passes -/

theorem activationPass_events (edit : Link → Except Unit Unit)
    (snapshot : List (ContactObj × ContactState)) :
    ∀ links d links' d' tr cr,
      activationPass edit snapshot links d = (links', d', tr, cr) →
      ∀ e ∈ tr, isActivationEvent e = true := by
  induction snapshot with
  | nil =>
    intro links d links' d' tr cr hres e he
    simp only [activationPass, Prod.mk.injEq] at hres
    rw [← hres.2.2.1] at he
    simp at he
  | cons p rest ih =>
    intro links d links' d' tr cr hres e he
    obtain ⟨c, s⟩ := p
    simp only [activationPass] at hres
    split at hres
    case _ hfl =>
      rcases hrec : activationPass edit rest links d with ⟨l₀, d₀, tr₀, cr₀⟩
      rw [hrec] at hres
      simp only [Prod.mk.injEq] at hres
      rw [← hres.2.2.1] at he
      simp only [List.mem_cons] at he
      rcases he with rfl | rfl | hmem
      · rfl
      · rfl
      · exact ih links d l₀ d₀ tr₀ cr₀ hrec e hmem
    case _ i hfl =>
      split at hres
      case _ e' hedit =>
        simp only [Prod.mk.injEq] at hres
        rw [← hres.2.2.1] at he
        simp only [List.mem_cons] at he
        rcases he with rfl | rfl | hmem
        · rfl
        · rfl
        · simp at hmem
      case _ u hedit =>
        rcases hrec : activationPass edit rest (links.set i (activatedLink links i c.val))
            (dictSet d c .LIVE) with ⟨l₀, d₀, tr₀, cr₀⟩
        rw [hrec] at hres
        simp only [Prod.mk.injEq] at hres
        rw [← hres.2.2.1] at he
        simp only [List.mem_cons] at he
        rcases he with rfl | rfl | rfl | hmem
        · rfl
        · rfl
        · rfl
        · exact ih _ _ l₀ d₀ tr₀ cr₀ hrec e hmem

theorem deactivationPass_events (edit : Link → Except Unit Unit)
    (snapshot : List (ContactObj × ContactState)) :
    ∀ links d links' d' tr cr,
      deactivationPass edit snapshot links d = (links', d', tr, cr) →
      ∀ e ∈ tr, isDeactivationEvent e = true := by
  induction snapshot with
  | nil =>
    intro links d links' d' tr cr hres e he
    simp only [deactivationPass, Prod.mk.injEq] at hres
    rw [← hres.2.2.1] at he
    simp at he
  | cons p rest ih =>
    intro links d links' d' tr cr hres e he
    obtain ⟨c, s⟩ := p
    simp only [deactivationPass] at hres
    split at hres
    case _ hfl =>
      rcases hrec : deactivationPass edit rest links d with ⟨l₀, d₀, tr₀, cr₀⟩
      rw [hrec] at hres
      simp only [Prod.mk.injEq] at hres
      rw [← hres.2.2.1] at he
      simp only [List.mem_cons] at he
      rcases he with rfl | rfl | hmem
      · rfl
      · rfl
      · exact ih links d l₀ d₀ tr₀ cr₀ hrec e hmem
    case _ i hfl =>
      split at hres
      case _ e' hedit =>
        simp only [Prod.mk.injEq] at hres
        rw [← hres.2.2.1] at he
        simp only [List.mem_cons] at he
        rcases he with rfl | rfl | hmem
        · rfl
        · rfl
        · simp at hmem
      case _ u hedit =>
        rcases hrec : deactivationPass edit rest (links.set i (deactivatedLink links i))
            (dictSet d c .POST) with ⟨l₀, d₀, tr₀, cr₀⟩
        rw [hrec] at hres
        simp only [Prod.mk.injEq] at hres
        rw [← hres.2.2.1] at he
        simp only [List.mem_cons] at he
        rcases he with rfl | rfl | rfl | hmem
        · rfl
        · rfl
        · rfl
        · exact ih _ _ l₀ d₀ tr₀ cr₀ hrec e hmem

theorem activationPass_complete (edit : Link → Except Unit Unit)
    (snapshot : List (ContactObj × ContactState)) :
    ∀ links d links' d' tr,
      activationPass edit snapshot links d = (links', d', tr, false) →
      ∀ p ∈ snapshot, TickEvent.activating p.1.oid ∈ tr ∧
        (TickEvent.warnedA p.1.oid ∈ tr ∨ TickEvent.activated p.1.oid ∈ tr) := by
  induction snapshot with
  | nil =>
    intro links d links' d' tr hres p hp
    simp at hp
  | cons q rest ih =>
    intro links d links' d' tr hres p hp
    obtain ⟨c, s⟩ := q
    simp only [activationPass] at hres
    split at hres
    case _ hfl =>
      rcases hrec : activationPass edit rest links d with ⟨l₀, d₀, tr₀, cr₀⟩
      rw [hrec] at hres
      simp only [Prod.mk.injEq] at hres
      obtain ⟨h1, h2, h3, h4⟩ := hres
      subst h3
      rcases List.mem_cons.mp hp with rfl | hmem
      · exact ⟨by simp, Or.inl (by simp)⟩
      · have := ih links d l₀ d₀ tr₀ (by rw [hrec, h4]) p hmem
        exact ⟨by simp [this.1], by rcases this.2 with hh | hh <;> [left; right] <;> simp [hh]⟩
    case _ i hfl =>
      split at hres
      case _ e' hedit =>
        simp only [Prod.mk.injEq] at hres
        exact absurd hres.2.2.2 (by simp)
      case _ u hedit =>
        rcases hrec : activationPass edit rest (links.set i (activatedLink links i c.val))
            (dictSet d c .LIVE) with ⟨l₀, d₀, tr₀, cr₀⟩
        rw [hrec] at hres
        simp only [Prod.mk.injEq] at hres
        obtain ⟨h1, h2, h3, h4⟩ := hres
        subst h3
        rcases List.mem_cons.mp hp with rfl | hmem
        · exact ⟨by simp, Or.inr (by simp)⟩
        · have := ih _ _ l₀ d₀ tr₀ (by rw [hrec, h4]) p hmem
          exact ⟨by simp [this.1], by rcases this.2 with hh | hh <;> [left; right] <;> simp [hh]⟩

theorem deactivationPass_complete (edit : Link → Except Unit Unit)
    (snapshot : List (ContactObj × ContactState)) :
    ∀ links d links' d' tr,
      deactivationPass edit snapshot links d = (links', d', tr, false) →
      ∀ p ∈ snapshot, TickEvent.deactivating p.1.oid ∈ tr := by
  induction snapshot with
  | nil =>
    intro links d links' d' tr hres p hp
    simp at hp
  | cons q rest ih =>
    intro links d links' d' tr hres p hp
    obtain ⟨c, s⟩ := q
    simp only [deactivationPass] at hres
    split at hres
    case _ hfl =>
      rcases hrec : deactivationPass edit rest links d with ⟨l₀, d₀, tr₀, cr₀⟩
      rw [hrec] at hres
      simp only [Prod.mk.injEq] at hres
      obtain ⟨h1, h2, h3, h4⟩ := hres
      subst h3
      rcases List.mem_cons.mp hp with rfl | hmem
      · simp
      · have hh := ih links d l₀ d₀ tr₀ (by rw [hrec, h4]) p hmem
        simp only [List.mem_cons]
        exact Or.inr (Or.inr hh)
    case _ i hfl =>
      split at hres
      case _ e' hedit =>
        simp only [Prod.mk.injEq] at hres
        exact absurd hres.2.2.2 (by simp)
      case _ u hedit =>
        rcases hrec : deactivationPass edit rest (links.set i (deactivatedLink links i))
            (dictSet d c .POST) with ⟨l₀, d₀, tr₀, cr₀⟩
        rw [hrec] at hres
        simp only [Prod.mk.injEq] at hres
        obtain ⟨h1, h2, h3, h4⟩ := hres
        subst h3
        rcases List.mem_cons.mp hp with rfl | hmem
        · simp
        · have hh := ih _ _ l₀ d₀ tr₀ (by rw [hrec, h4]) p hmem
          simp only [List.mem_cons]
          exact Or.inr (Or.inr (Or.inr hh))

theorem activationPass_live (edit : Link → Except Unit Unit)
    (snapshot : List (ContactObj × ContactState)) :
    ∀ links d links' d' tr cr,
      activationPass edit snapshot links d = (links', d', tr, cr) →
      ∀ k, (k, ContactState.LIVE) ∈ d → (k, ContactState.LIVE) ∈ d' := by
  induction snapshot with
  | nil =>
    intro links d links' d' tr cr hres k hk
    simp only [activationPass, Prod.mk.injEq] at hres
    exact hres.2.1 ▸ hk
  | cons q rest ih =>
    intro links d links' d' tr cr hres k hk
    obtain ⟨c, s⟩ := q
    simp only [activationPass] at hres
    split at hres
    case _ hfl =>
      rcases hrec : activationPass edit rest links d with ⟨l₀, d₀, tr₀, cr₀⟩
      rw [hrec] at hres
      simp only [Prod.mk.injEq] at hres
      exact hres.2.1 ▸ ih links d l₀ d₀ tr₀ cr₀ hrec k hk
    case _ i hfl =>
      split at hres
      case _ e' hedit =>
        simp only [Prod.mk.injEq] at hres
        exact hres.2.1 ▸ hk
      case _ u hedit =>
        rcases hrec : activationPass edit rest (links.set i (activatedLink links i c.val))
            (dictSet d c .LIVE) with ⟨l₀, d₀, tr₀, cr₀⟩
        rw [hrec] at hres
        simp only [Prod.mk.injEq] at hres
        exact hres.2.1 ▸ ih _ _ l₀ d₀ tr₀ cr₀ hrec k (mem_dictSet_same_val d c k _ hk)

theorem activationPass_oid (edit : Link → Except Unit Unit)
    (snapshot : List (ContactObj × ContactState)) :
    ∀ links d links' d' tr cr,
      activationPass edit snapshot links d = (links', d', tr, cr) →
      (∀ p ∈ snapshot, p.1.oid ∈ d.map (fun q => q.1.oid)) →
      d'.map (fun q => q.1.oid) = d.map (fun q => q.1.oid) := by
  induction snapshot with
  | nil =>
    intro links d links' d' tr cr hres hin
    simp only [activationPass, Prod.mk.injEq] at hres
    rw [← hres.2.1]
  | cons q rest ih =>
    intro links d links' d' tr cr hres hin
    obtain ⟨c, s⟩ := q
    simp only [activationPass] at hres
    split at hres
    case _ hfl =>
      rcases hrec : activationPass edit rest links d with ⟨l₀, d₀, tr₀, cr₀⟩
      rw [hrec] at hres
      simp only [Prod.mk.injEq] at hres
      exact hres.2.1 ▸ ih links d l₀ d₀ tr₀ cr₀ hrec (fun p hp => hin p (by simp [hp]))
    case _ i hfl =>
      split at hres
      case _ e' hedit =>
        simp only [Prod.mk.injEq] at hres
        rw [← hres.2.1]
      case _ u hedit =>
        rcases hrec : activationPass edit rest (links.set i (activatedLink links i c.val))
            (dictSet d c .LIVE) with ⟨l₀, d₀, tr₀, cr₀⟩
        rw [hrec] at hres
        simp only [Prod.mk.injEq] at hres
        have hset := dictSet_map_oid d c ContactState.LIVE (hin (c, s) (by simp))
        have hin' : ∀ p ∈ rest, p.1.oid ∈ (dictSet d c ContactState.LIVE).map (fun q => q.1.oid) := by
          intro p hp
          rw [hset]
          exact hin p (by simp [hp])
        have := ih _ _ l₀ d₀ tr₀ cr₀ hrec hin'
        rw [hres.2.1] at this
        rw [this, hset]

theorem activationPass_dict (edit : Link → Except Unit Unit)
    (snapshot : List (ContactObj × ContactState)) :
    ∀ links d links' d' tr cr,
      activationPass edit snapshot links d = (links', d', tr, cr) →
      (∀ p ∈ snapshot, dictGet d p.1 = some ContactState.PRE) →
      ((snapshot.map (fun p => p.1.oid)).Nodup) →
      ∀ k, dictGet d' k = dictGet d k ∨
        (dictGet d k = some ContactState.PRE ∧ dictGet d' k = some ContactState.LIVE ∧
          TickEvent.activated k.oid ∈ tr) := by
  induction snapshot with
  | nil =>
    intro links d links' d' tr cr hres hpre hnd k
    simp only [activationPass, Prod.mk.injEq] at hres
    exact Or.inl (hres.2.1 ▸ rfl)
  | cons q rest ih =>
    intro links d links' d' tr cr hres hpre hnd k
    obtain ⟨c, s⟩ := q
    simp only [List.map_cons, List.nodup_cons] at hnd
    simp only [activationPass] at hres
    split at hres
    case _ hfl =>
      rcases hrec : activationPass edit rest links d with ⟨l₀, d₀, tr₀, cr₀⟩
      rw [hrec] at hres
      simp only [Prod.mk.injEq] at hres
      obtain ⟨h1, h2, h3, h4⟩ := hres
      subst h2; subst h3
      rcases ih links d l₀ d₀ tr₀ cr₀ hrec (fun p hp => hpre p (by simp [hp])) hnd.2 k with
        hh | ⟨ha, hb, hc⟩
      · exact Or.inl hh
      · exact Or.inr ⟨ha, hb, by simp [hc]⟩
    case _ i hfl =>
      split at hres
      case _ e' hedit =>
        simp only [Prod.mk.injEq] at hres
        exact Or.inl (hres.2.1 ▸ rfl)
      case _ u hedit =>
        rcases hrec : activationPass edit rest (links.set i (activatedLink links i c.val))
            (dictSet d c .LIVE) with ⟨l₀, d₀, tr₀, cr₀⟩
        rw [hrec] at hres
        simp only [Prod.mk.injEq] at hres
        obtain ⟨h1, h2, h3, h4⟩ := hres
        subst h2; subst h3
        have hpre' : ∀ p ∈ rest, dictGet (dictSet d c ContactState.LIVE) p.1 =
            some ContactState.PRE := by
          intro p hp
          have hne : p.1.oid ≠ c.oid := by
            intro hh
            exact hnd.1 (hh ▸ List.mem_map.2 ⟨p, hp, rfl⟩)
          rw [dictGet_dictSet_other d c p.1 _ hne]
          exact hpre p (by simp [hp])
        by_cases hk : k.oid = c.oid
        · have hdk : dictGet d k = some ContactState.PRE := by
            rw [dictGet_eq_of_oid_eq d hk]
            exact hpre (c, s) (by simp)
          have hd1k : dictGet (dictSet d c ContactState.LIVE) k = some ContactState.LIVE :=
            dictGet_dictSet_same d c k _ hk
          rcases ih _ _ l₀ d₀ tr₀ cr₀ hrec hpre' hnd.2 k with hh | ⟨ha, _, _⟩
          · exact Or.inr ⟨hdk, hh.trans hd1k, by simp [hk]⟩
          · rw [hd1k] at ha
            exact absurd ha (by simp)
        · have hd1k : dictGet (dictSet d c ContactState.LIVE) k = dictGet d k :=
            dictGet_dictSet_other d c k _ hk
          rcases ih _ _ l₀ d₀ tr₀ cr₀ hrec hpre' hnd.2 k with hh | ⟨ha, hb, hc⟩
          · exact Or.inl (hh.trans hd1k)
          · exact Or.inr ⟨hd1k ▸ ha, hb, by simp [hc]⟩

theorem deactivationPass_dict (edit : Link → Except Unit Unit)
    (snapshot : List (ContactObj × ContactState)) :
    ∀ links d links' d' tr cr,
      deactivationPass edit snapshot links d = (links', d', tr, cr) →
      (∀ p ∈ snapshot, dictGet d p.1 = some ContactState.LIVE) →
      ((snapshot.map (fun p => p.1.oid)).Nodup) →
      ∀ k, dictGet d' k = dictGet d k ∨
        (dictGet d k = some ContactState.LIVE ∧ dictGet d' k = some ContactState.POST ∧
          TickEvent.deactivated k.oid ∈ tr) := by
  induction snapshot with
  | nil =>
    intro links d links' d' tr cr hres hlive hnd k
    simp only [deactivationPass, Prod.mk.injEq] at hres
    exact Or.inl (hres.2.1 ▸ rfl)
  | cons q rest ih =>
    intro links d links' d' tr cr hres hlive hnd k
    obtain ⟨c, s⟩ := q
    simp only [List.map_cons, List.nodup_cons] at hnd
    simp only [deactivationPass] at hres
    split at hres
    case _ hfl =>
      rcases hrec : deactivationPass edit rest links d with ⟨l₀, d₀, tr₀, cr₀⟩
      rw [hrec] at hres
      simp only [Prod.mk.injEq] at hres
      obtain ⟨h1, h2, h3, h4⟩ := hres
      subst h2; subst h3
      rcases ih links d l₀ d₀ tr₀ cr₀ hrec (fun p hp => hlive p (by simp [hp])) hnd.2 k with
        hh | ⟨ha, hb, hc⟩
      · exact Or.inl hh
      · exact Or.inr ⟨ha, hb, by simp [hc]⟩
    case _ i hfl =>
      split at hres
      case _ e' hedit =>
        simp only [Prod.mk.injEq] at hres
        exact Or.inl (hres.2.1 ▸ rfl)
      case _ u hedit =>
        rcases hrec : deactivationPass edit rest (links.set i (deactivatedLink links i))
            (dictSet d c .POST) with ⟨l₀, d₀, tr₀, cr₀⟩
        rw [hrec] at hres
        simp only [Prod.mk.injEq] at hres
        obtain ⟨h1, h2, h3, h4⟩ := hres
        subst h2; subst h3
        have hlive' : ∀ p ∈ rest, dictGet (dictSet d c ContactState.POST) p.1 =
            some ContactState.LIVE := by
          intro p hp
          have hne : p.1.oid ≠ c.oid := by
            intro hh
            exact hnd.1 (hh ▸ List.mem_map.2 ⟨p, hp, rfl⟩)
          rw [dictGet_dictSet_other d c p.1 _ hne]
          exact hlive p (by simp [hp])
        by_cases hk : k.oid = c.oid
        · have hdk : dictGet d k = some ContactState.LIVE := by
            rw [dictGet_eq_of_oid_eq d hk]
            exact hlive (c, s) (by simp)
          have hd1k : dictGet (dictSet d c ContactState.POST) k = some ContactState.POST :=
            dictGet_dictSet_same d c k _ hk
          rcases ih _ _ l₀ d₀ tr₀ cr₀ hrec hlive' hnd.2 k with hh | ⟨ha, _, _⟩
          · exact Or.inr ⟨hdk, hh.trans hd1k, by simp [hk]⟩
          · rw [hd1k] at ha
            exact absurd ha (by simp)
        · have hd1k : dictGet (dictSet d c ContactState.POST) k = dictGet d k :=
            dictGet_dictSet_other d c k _ hk
          rcases ih _ _ l₀ d₀ tr₀ cr₀ hrec hlive' hnd.2 k with hh | ⟨ha, hb, hc⟩
          · exact Or.inl (hh.trans hd1k)
          · exact Or.inr ⟨hd1k ▸ ha, hb, by simp [hc]⟩

theorem activationPass_avoid (edit : Link → Except Unit Unit)
    (snapshot : List (ContactObj × ContactState)) (po : Nat) :
    ∀ links d links' d' tr cr,
      activationPass edit snapshot links d = (links', d', tr, cr) →
      (∀ q ∈ snapshot, q.1.oid ≠ po) →
      TickEvent.editA po ∉ tr ∧ TickEvent.activated po ∉ tr ∧
        (∀ k : ContactObj, k.oid = po → dictGet d' k = dictGet d k) := by
  induction snapshot with
  | nil =>
    intro links d links' d' tr cr hres hq
    simp only [activationPass, Prod.mk.injEq] at hres
    refine ⟨?_, ?_, ?_⟩
    · rw [← hres.2.2.1]; simp
    · rw [← hres.2.2.1]; simp
    · intro k _; rw [← hres.2.1]
  | cons q rest ih =>
    intro links d links' d' tr cr hres hq
    obtain ⟨c, s⟩ := q
    have hc : c.oid ≠ po := hq (c, s) (by simp)
    have hq' : ∀ q ∈ rest, q.1.oid ≠ po := fun q hqq => hq q (by simp [hqq])
    simp only [activationPass] at hres
    split at hres
    case _ hfl =>
      rcases hrec : activationPass edit rest links d with ⟨l₀, d₀, tr₀, cr₀⟩
      rw [hrec] at hres
      simp only [Prod.mk.injEq] at hres
      obtain ⟨h1, h2, h3, h4⟩ := hres
      subst h2; subst h3
      obtain ⟨ha, hb, hcw⟩ := ih links d l₀ d₀ tr₀ cr₀ hrec hq'
      refine ⟨?_, ?_, hcw⟩
      · simp only [List.mem_cons]
        rintro (hh | hh | hh)
        · cases hh
        · cases hh
        · exact ha hh
      · simp only [List.mem_cons]
        rintro (hh | hh | hh)
        · cases hh
        · cases hh
        · exact hb hh
    case _ i hfl =>
      split at hres
      case _ e' hedit =>
        simp only [Prod.mk.injEq] at hres
        obtain ⟨h1, h2, h3, h4⟩ := hres
        subst h2; subst h3
        refine ⟨?_, ?_, fun k _ => rfl⟩
        · simp only [List.mem_cons]
          rintro (hh | hh | hh)
          · cases hh
          · injection hh with hh
            exact hc hh.symm
          · cases hh
        · simp only [List.mem_cons]
          rintro (hh | hh | hh)
          · cases hh
          · cases hh
          · cases hh
      case _ u hedit =>
        rcases hrec : activationPass edit rest (links.set i (activatedLink links i c.val))
            (dictSet d c .LIVE) with ⟨l₀, d₀, tr₀, cr₀⟩
        rw [hrec] at hres
        simp only [Prod.mk.injEq] at hres
        obtain ⟨h1, h2, h3, h4⟩ := hres
        subst h2; subst h3
        obtain ⟨ha, hb, hcw⟩ := ih _ _ l₀ d₀ tr₀ cr₀ hrec hq'
        refine ⟨?_, ?_, ?_⟩
        · simp only [List.mem_cons]
          rintro (hh | hh | hh | hh)
          · cases hh
          · injection hh with hh
            exact hc hh.symm
          · cases hh
          · exact ha hh
        · simp only [List.mem_cons]
          rintro (hh | hh | hh | hh)
          · cases hh
          · cases hh
          · injection hh with hh
            exact hc hh.symm
          · exact hb hh
        · intro k hk
          rw [hcw k hk, dictGet_dictSet_other d c k _ (by rw [hk]; exact Ne.symm hc)]

theorem activationPass_missing (edit : Link → Except Unit Unit)
    (snapshot : List (ContactObj × ContactState)) :
    ∀ links d links' d' tr (p : ContactObj × ContactState),
      activationPass edit snapshot links d = (links', d', tr, false) →
      ((snapshot.map (fun q => q.1.oid)).Nodup) →
      p ∈ snapshot →
      find_link_idx links p.1.val.nodes.1 p.1.val.nodes.2 = none →
      TickEvent.warnedA p.1.oid ∈ tr ∧ TickEvent.editA p.1.oid ∉ tr ∧
        dictGet d' p.1 = dictGet d p.1 := by
  induction snapshot with
  | nil =>
    intro links d links' d' tr p hres hnd hp hfind
    simp at hp
  | cons q rest ih =>
    intro links d links' d' tr p hres hnd hp hfind
    obtain ⟨c, s⟩ := q
    simp only [List.map_cons, List.nodup_cons] at hnd
    simp only [activationPass] at hres
    split at hres
    case _ hfl =>
      rcases hrec : activationPass edit rest links d with ⟨l₀, d₀, tr₀, cr₀⟩
      rw [hrec] at hres
      simp only [Prod.mk.injEq] at hres
      obtain ⟨h1, h2, h3, h4⟩ := hres
      subst h2; subst h3
      rcases List.mem_cons.mp hp with rfl | hmem
      · have hrest : ∀ q ∈ rest, q.1.oid ≠ c.oid := by
          intro q hq hh
          exact hnd.1 (hh ▸ List.mem_map.2 ⟨q, hq, rfl⟩)
        obtain ⟨hea, _, hdw⟩ :=
          activationPass_avoid edit rest c.oid links d l₀ d₀ tr₀ cr₀ hrec hrest
        refine ⟨by simp, ?_, hdw c rfl⟩
        simp only [List.mem_cons]
        rintro (hh | hh | hh)
        · cases hh
        · cases hh
        · exact hea hh
      · obtain ⟨ha, hb, hdw⟩ :=
          ih links d l₀ d₀ tr₀ p (by rw [hrec, h4]) hnd.2 hmem hfind
        refine ⟨by simp [ha], ?_, hdw⟩
        simp only [List.mem_cons]
        rintro (hh | hh | hh)
        · cases hh
        · cases hh
        · exact hb hh
    case _ i hfl =>
      split at hres
      case _ e' hedit =>
        simp only [Prod.mk.injEq] at hres
        exact absurd hres.2.2.2 (by simp)
      case _ u hedit =>
        rcases hrec : activationPass edit rest (links.set i (activatedLink links i c.val))
            (dictSet d c .LIVE) with ⟨l₀, d₀, tr₀, cr₀⟩
        rw [hrec] at hres
        simp only [Prod.mk.injEq] at hres
        obtain ⟨h1, h2, h3, h4⟩ := hres
        subst h2; subst h3
        rcases List.mem_cons.mp hp with rfl | hmem
        · rw [hfind] at hfl
          cases hfl
        · have hpo : p.1.oid ≠ c.oid := by
            intro hh
            exact hnd.1 (hh ▸ List.mem_map.2 ⟨p, hmem, rfl⟩)
          have hi := find_link_idx_lt hfl
          have hfind' : find_link_idx (links.set i (activatedLink links i c.val))
              p.1.val.nodes.1 p.1.val.nodes.2 = none := by
            rw [← find_link_idx_congr (map_nodePair_set_activated links c.val hi).symm]
            exact hfind
          obtain ⟨ha, hb, hdw⟩ :=
            ih _ _ l₀ d₀ tr₀ p (by rw [hrec, h4]) hnd.2 hmem hfind'
          refine ⟨by simp [ha], ?_, ?_⟩
          · simp only [List.mem_cons]
            rintro (hh | hh | hh | hh)
            · cases hh
            · injection hh with hh
              exact hpo hh
            · cases hh
            · exact hb hh
          · rw [hdw, dictGet_dictSet_other d c p.1 _ hpo]

/-! ### Helper lemmas: the temporal queries -/

theorem mem_need_activation {cp : CoreContactPlan} {t : Int} {p : ContactObj × ContactState} :
    p ∈ cp.need_activation t ↔
      p ∈ cp.contacts ∧ p.1.val.timespan.1 ≤ t ∧ t ≤ p.1.val.timespan.2 ∧
        p.2 = ContactState.PRE := by
  simp only [CoreContactPlan.need_activation, CoreContactPlan.at, List.mem_filter,
    Bool.and_eq_true, decide_eq_true_eq, beq_iff_eq]
  tauto

theorem mem_need_deactivation {cp : CoreContactPlan} {t : Int} {p : ContactObj × ContactState} :
    p ∈ cp.need_deactivation t ↔
      p ∈ cp.contacts ∧ p.1.val.timespan.2 ≤ t ∧ p.2 = ContactState.LIVE := by
  simp [CoreContactPlan.need_deactivation, List.mem_filter, Bool.and_eq_true,
    decide_eq_true_eq, and_assoc, ge_iff_le]

theorem need_activation_oid_nodup {cp : CoreContactPlan} (hnd : oidsNodup cp.contacts)
    (t : Int) : ((cp.need_activation t).map (fun p => p.1.oid)).Nodup := by
  have hs : List.Sublist (cp.need_activation t) cp.contacts :=
    (List.filter_sublist _).trans (List.filter_sublist _)
  exact hnd.sublist (hs.map (fun p => p.1.oid))

theorem need_deactivation_oid_nodup (cp : CoreContactPlan) (hnd : oidsNodup cp.contacts)
    (t : Int) : ((cp.need_deactivation t).map (fun p => p.1.oid)).Nodup := by
  have hs : List.Sublist (cp.need_deactivation t) cp.contacts := List.filter_sublist _
  exact hnd.sublist (hs.map (fun p => p.1.oid))

theorem need_activation_pre {cp : CoreContactPlan} (hnd : oidsNodup cp.contacts) {t : Int} :
    ∀ p ∈ cp.need_activation t, dictGet cp.contacts p.1 = some ContactState.PRE := by
  intro p hp
  obtain ⟨hmem, _, _, hpre⟩ := mem_need_activation.mp hp
  have hm : (p.1, p.2) ∈ cp.contacts := by simpa using hmem
  rw [dictGet_of_mem_nodup hnd hm, hpre]

theorem need_deactivation_live (cp : CoreContactPlan) (hnd : oidsNodup cp.contacts) {t : Int} :
    ∀ p ∈ cp.need_deactivation t, dictGet cp.contacts p.1 = some ContactState.LIVE := by
  intro p hp
  obtain ⟨hmem, _, hlive⟩ := mem_need_deactivation.mp hp
  have hm : (p.1, p.2) ∈ cp.contacts := by simpa using hmem
  rw [dictGet_of_mem_nodup hnd hm, hlive]

theorem need_activation_oid_mem {cp : CoreContactPlan} {t : Int} :
    ∀ p ∈ cp.need_activation t, p.1.oid ∈ cp.contacts.map (fun q => q.1.oid) := by
  intro p hp
  exact List.mem_map.2 ⟨p, (mem_need_activation.mp hp).1, rfl⟩

theorem activationPass_all_missing (edit : Link → Except Unit Unit)
    (snapshot : List (ContactObj × ContactState)) :
    ∀ links d,
      (∀ p ∈ snapshot, find_link_idx links p.1.val.nodes.1 p.1.val.nodes.2 = none) →
      activationPass edit snapshot links d = (links, d, warnTrace snapshot, false) := by
  induction snapshot with
  | nil =>
    intro links d h
    rfl
  | cons q rest ih =>
    intro links d h
    obtain ⟨c, s⟩ := q
    have hc := h (c, s) (by simp)
    simp only [activationPass, hc, ih links d (fun p hp => h p (by simp [hp])), warnTrace]

/-! ### Claim theorems -/

/-- C8: `at(t)` returns exactly the contacts whose `timespan` contains `t`
(`timespan[0] ≤ t ≤ timespan[1]`), and it is independent of lifecycle state:
rewriting every contact's state by an arbitrary function leaves the returned
set of contacts unchanged. -/
theorem C8_at_characterization (cp : CoreContactPlan) (t : Int) :
    (∀ p : ContactObj × ContactState, p ∈ cp.at t ↔
      p ∈ cp.contacts ∧ p.1.val.timespan.1 ≤ t ∧ t ≤ p.1.val.timespan.2) ∧
    (∀ f : ContactState → ContactState,
      (CoreContactPlan.at ⟨cp.loop, cp.contacts.map (fun p => (p.1, f p.2))⟩ t).map
          (fun p => p.1) = (cp.at t).map (fun p => p.1)) := by
  constructor
  · intro p
    simp [CoreContactPlan.at, List.mem_filter, Bool.and_eq_true, decide_eq_true_eq]
  · intro f
    show ((cp.contacts.map (fun p => (p.1, f p.2))).filter _).map _ = _
    rw [List.filter_map, List.map_map]
    rfl

/-- C9: `need_deactivation(t)` returns exactly the contacts with
`timespan[1] ≤ t` (also when the loop arrives late, `t` strictly past the
end) whose state is still `LIVE`; in particular a contact already moved to
`POST` is never offered again, so each contact is offered for deactivation
exactly once. -/
theorem C9_need_deactivation_exact (cp : CoreContactPlan) (t : Int) :
    (∀ p : ContactObj × ContactState, p ∈ cp.need_deactivation t ↔
      p ∈ cp.contacts ∧ p.1.val.timespan.2 ≤ t ∧ p.2 = ContactState.LIVE) ∧
    (∀ p : ContactObj × ContactState, p.2 = ContactState.POST →
      p ∉ cp.need_deactivation t) := by
  refine ⟨fun p => mem_need_deactivation, ?_⟩
  intro p hpost hmem
  have hlive := (mem_need_deactivation.mp hmem).2.2
  rw [hpost] at hlive
  cases hlive

/-- C2 counterexample: loading the same contact directive twice produces two
distinct dict entries whose field values are equal — under the claimed value
identity they would be one key — and writing a state through one of the two
keys is not seen through the other: the lookup still returns the old `PRE`,
not the written `LIVE`. -/
theorem C2_counterexample :
    CoreContactPlan.load [demoLine, demoLine] =
      .ok ⟨false, [(⟨0, demoContact⟩, .PRE), (⟨1, demoContact⟩, .PRE)]⟩ ∧
    (⟨0, demoContact⟩ : ContactObj).val = (⟨1, demoContact⟩ : ContactObj).val ∧
    dictGet (dictSet [(⟨0, demoContact⟩, .PRE), (⟨1, demoContact⟩, .PRE)]
        ⟨0, demoContact⟩ .LIVE) ⟨1, demoContact⟩ = some ContactState.PRE := by
  refine ⟨by rfl, rfl, by decide⟩

/-- C2 (amended): the contacts dict is keyed by object identity, not by field
values: a state written through key `k` is seen exactly through the keys with
the same identity (`oid`), and lookups through any other key — including one
with identical field values — are unaffected. -/
theorem C2_identity_keying (d : ContactDict) (k k' : ContactObj) (v : ContactState) :
    (k'.oid = k.oid → dictGet (dictSet d k v) k' = some v) ∧
    (k'.oid ≠ k.oid → dictGet (dictSet d k v) k' = dictGet d k') :=
  ⟨fun h => dictGet_dictSet_same d k k' v h,
   fun h => dictGet_dictSet_other d k k' v h⟩

theorem C2_identity_keying_witness :
    dictGet (dictSet [(demoObj, ContactState.PRE), (⟨1, demoContact⟩, ContactState.PRE)]
        demoObj ContactState.LIVE) demoObj = some ContactState.LIVE ∧
    dictGet (dictSet [(demoObj, ContactState.PRE), (⟨1, demoContact⟩, ContactState.PRE)]
        demoObj ContactState.LIVE) ⟨1, demoContact⟩ =
      dictGet [(demoObj, ContactState.PRE), (⟨1, demoContact⟩, ContactState.PRE)]
        ⟨1, demoContact⟩ :=
  ⟨(C2_identity_keying [(demoObj, .PRE), (⟨1, demoContact⟩, .PRE)] demoObj demoObj
      ContactState.LIVE).1 rfl,
   (C2_identity_keying [(demoObj, .PRE), (⟨1, demoContact⟩, .PRE)] demoObj ⟨1, demoContact⟩
      ContactState.LIVE).2 (by decide)⟩

/-- C3 counterexample: the contact directive `a contact 10 20` has 2 fields
after the keyword (≠ 8), yet loading succeeds and the directive is silently
dropped (the resulting plan has no contacts), because the line dispatcher
only hands lines with more than 4 tokens to the contact parser. -/
theorem C3_counterexample :
    CoreContactPlan.load ["a contact 10 20".toList] = .ok ⟨false, []⟩ := by
  rfl

/-- C4 counterexample: with the plan flag set by `s loop 1` and the caller
supplying an override of `false`, the scheduler still loops at the end of the
timeline (the claim requires it to terminate). -/
theorem C4_counterexample :
    loopIter (some false) (fun _ => .ok ()) [] ⟨5, ⟨true, []⟩⟩ =
      .looped ⟨0, ⟨true, []⟩⟩ ∧
    loopIter (some false) (fun _ => .ok ()) [] ⟨5, ⟨true, []⟩⟩ ≠ .halted := by
  refine ⟨by decide, by decide⟩

/-- C4 (amended): the end-of-timeline decision is the disjunction
`plan.loop or override` (the truthiness of `cp.loop or args.loop`): the run
terminates iff the plan flag is false and the caller flag is not truthy, and
it loops (resetting time and states) iff either flag is set.  The caller flag
can therefore only enable looping, never disable it. -/
theorem C4_loop_or_override (argsLoop : Option Bool) (edit : Link → Except Unit Unit)
    (links : List Link) (st : SchedState)
    (h : st.plan.next_activation st.curTime = none ∧
         st.plan.next_deactivation st.curTime = none) :
    (loopIter argsLoop edit links st = .halted ↔
      st.plan.loop = false ∧ argsLoop ≠ some true) ∧
    (loopIter argsLoop edit links st =
        .looped ⟨0, ⟨st.plan.loop, resetDict st.plan.contacts⟩⟩ ↔
      (st.plan.loop = true ∨ argsLoop = some true)) := by
  unfold loopIter
  rw [h.1, h.2]
  have hcond : (((none : Option Int)).isNone && ((none : Option Int)).isNone) = true := rfl
  by_cases hl : (st.plan.loop || (argsLoop == some true)) = true
  · rw [if_pos hcond, if_pos hl]
    have hl' : st.plan.loop = true ∨ argsLoop = some true := by simpa using hl
    rcases hl' with hh | hh
    · exact ⟨⟨fun hc => absurd hc (by simp), fun hc => absurd hh (by simp [hc.1])⟩,
        ⟨fun _ => Or.inl hh, fun _ => rfl⟩⟩
    · exact ⟨⟨fun hc => absurd hc (by simp), fun hc => absurd hh hc.2⟩,
        ⟨fun _ => Or.inr hh, fun _ => rfl⟩⟩
  · rw [if_pos hcond, if_neg hl]
    simp only [Bool.or_eq_true, not_or, Bool.not_eq_true] at hl
    have hna : ¬argsLoop = some true := by
      intro hh
      rw [hh] at hl
      simp at hl
    refine ⟨⟨fun _ => ⟨hl.1, hna⟩, fun _ => rfl⟩, ⟨fun hc => absurd hc (by simp), ?_⟩⟩
    intro hh
    rcases hh with hh | hh
    · rw [hl.1] at hh
      cases hh
    · exact absurd hh hna

theorem C4_loop_or_override_witness :
    loopIter none (fun _ => .ok ()) [] ⟨3, ⟨true, []⟩⟩ = .looped ⟨0, ⟨true, []⟩⟩ :=
  (C4_loop_or_override none (fun _ => .ok ()) [] ⟨3, ⟨true, []⟩⟩
    ⟨by decide, by decide⟩).2.mpr (Or.inl rfl)

/-- C5 counterexample: one due activation, the link is present, and the
`edit_link` call fails: the loop body ends in `.crashed` — the exception
propagates and the scheduler does not log-and-continue to the next event (the
claim requires the loop to survive).  The contact's state write (which in the
source follows the RPC call) is also lost: the plan is unchanged. -/
theorem C5_counterexample :
    loopIter none (fun _ => .error ()) [demoLink] ⟨0, demoPlan⟩ =
      .crashed ⟨10, demoPlan⟩ [⟨1, 2, ⟨1000000, 5, 0, 1⟩⟩]
        [.activating 0, .editA 0] := by
  decide

/-- C5 (amended): a failing Link Controller apply call is not caught: when
the first due activation finds its link and every `edit_link` call raises,
the whole loop body aborts (`.crashed`) at that event — nothing is logged, no
later event of the tick is processed, and the plan is left exactly as it was
before the tick (the failing contact's `LIVE` write never happens, because it
follows the RPC call in program order). -/
theorem C5_apply_failure_crashes (argsLoop : Option Bool) (links : List Link)
    (st : SchedState) (t : Int) (p : ContactObj × ContactState)
    (rest : List (ContactObj × ContactState)) (i : Nat)
    (hmin : minDefined (st.plan.next_activation st.curTime)
        (st.plan.next_deactivation st.curTime) = some t)
    (hsnap : st.plan.need_activation t = p :: rest)
    (hfind : find_link_idx links p.1.val.nodes.1 p.1.val.nodes.2 = some i) :
    loopIter argsLoop (fun _ => .error ()) links st =
      .crashed ⟨t, st.plan⟩ (links.set i (activatedLink links i p.1.val))
        [.activating p.1.oid, .editA p.1.oid] := by
  unfold loopIter
  rw [minDefined_bothNone hmin]
  rw [if_neg (by simp), hmin]
  simp only [hsnap, activationPass, hfind]
  rfl

theorem C5_apply_failure_crashes_witness :
    loopIter none (fun _ => .error ()) [demoLink] ⟨0, demoPlan⟩ =
      .crashed ⟨10, demoPlan⟩
        ([demoLink].set 0 (activatedLink [demoLink] 0 (demoObj, ContactState.PRE).1.val))
        [.activating (demoObj, ContactState.PRE).1.oid, .editA (demoObj, ContactState.PRE).1.oid] :=
  C5_apply_failure_crashes none [demoLink] ⟨0, demoPlan⟩ 10 (demoObj, ContactState.PRE) [] 0
    (by decide) (by decide) (by decide)

/-- C1 counterexample: one contact due at `t = 10`, no links at all: the tick
produces the warning, and the post-tick plan still maps the contact to `PRE`
— the transition to `LIVE` did not occur (the claim asserts it does: the
`continue` at source line 170 skips the state write at line 177). -/
theorem C1_counterexample :
    loopIter none (fun _ => .ok ()) [] ⟨0, demoPlan⟩ =
      .ticked ⟨10, demoPlan⟩ [] [.activating 0, .warnedA 0] ∧
    dictGet demoPlan.contacts demoObj = some ContactState.PRE := by
  refine ⟨by decide, by decide⟩

/-- C10: if every contact due for activation at the pinned time lacks a link
(and no deactivation is due), the tick changes nothing: the loop body returns
the very same state (the due contacts stay `PRE`, so `next_activation` keeps
answering the current time, every iteration picks the same `next_event` with
a zero-length sleep), and any number of further iterations leaves the run in
exactly that state — the scheduler neither terminates nor advances time. -/
theorem C10_missing_link_livelock (argsLoop : Option Bool)
    (edit : Link → Except Unit Unit) (links : List Link) (st : SchedState)
    (hna : st.plan.next_activation st.curTime = some st.curTime)
    (hdeact : st.plan.need_deactivation st.curTime = [])
    (hmiss : ∀ p ∈ st.plan.need_activation st.curTime,
      find_link links p.1.val.nodes.1 p.1.val.nodes.2 = none) :
    loopIter argsLoop edit links st =
      .ticked st links (warnTrace (st.plan.need_activation st.curTime)) ∧
    ∀ n, loopRun argsLoop edit n links st = .running st links := by
  have hminEq : minDefined (st.plan.next_activation st.curTime)
      (st.plan.next_deactivation st.curTime) = some st.curTime := by
    cases hnd : st.plan.next_deactivation st.curTime with
    | none => rw [hna]; rfl
    | some v =>
      have hv := next_deactivation_ge hnd
      rw [hna]
      simp [minDefined, min_eq_left hv]
  have hmiss' : ∀ p ∈ st.plan.need_activation st.curTime,
      find_link_idx links p.1.val.nodes.1 p.1.val.nodes.2 = none := fun p hp =>
    (find_link_idx_eq_none_iff links _ _).mpr (hmiss p hp)
  have hplan : (⟨st.plan.loop, st.plan.contacts⟩ : CoreContactPlan) = st.plan := rfl
  have hstep : loopIter argsLoop edit links st =
      .ticked st links (warnTrace (st.plan.need_activation st.curTime)) := by
    unfold loopIter
    rw [minDefined_bothNone hminEq]
    rw [if_neg (by simp), hminEq]
    simp only [activationPass_all_missing edit (st.plan.need_activation st.curTime)
      links st.plan.contacts hmiss', hplan, hdeact, deactivationPass]
    rw [List.append_nil]
    rfl
  refine ⟨hstep, ?_⟩
  intro n
  induction n with
  | zero => rfl
  | succ n ih =>
    simp only [loopRun, hstep]
    exact ih

theorem C10_missing_link_livelock_witness :
    loopRun none (fun _ => .ok ()) 3 [] ⟨10, demoPlan⟩ = .running ⟨10, demoPlan⟩ [] :=
  (C10_missing_link_livelock none (fun _ => .ok ()) [] ⟨10, demoPlan⟩
    (by decide) (by decide) (by decide)).2 3

/-! ### Helper lemmas: destructing one loop iteration -/

theorem loopIter_ticked_destruct (argsLoop : Option Bool) (edit : Link → Except Unit Unit)
    (links : List Link) (st st' : SchedState) (links' : List Link) (tr : List TickEvent)
    (h : loopIter argsLoop edit links st = .ticked st' links' tr) :
    ∃ t links1 d1 tr1 links2 d2 tr2,
      minDefined (st.plan.next_activation st.curTime)
        (st.plan.next_deactivation st.curTime) = some t ∧
      activationPass edit (st.plan.need_activation t) links st.plan.contacts =
        (links1, d1, tr1, false) ∧
      deactivationPass edit (CoreContactPlan.need_deactivation ⟨st.plan.loop, d1⟩ t)
        links1 d1 = (links2, d2, tr2, false) ∧
      st' = ⟨t, ⟨st.plan.loop, d2⟩⟩ ∧ links' = links2 ∧ tr = tr1 ++ tr2 := by
  unfold loopIter at h
  split at h
  · split at h <;> cases h
  · split at h
    case _ => cases h
    case _ t hmin =>
      rcases hres₁ : activationPass edit (st.plan.need_activation t) links st.plan.contacts
        with ⟨links1, d1, tr1, cr1⟩
      simp only [hres₁] at h
      split at h
      case _ => cases h
      case _ hcr1 =>
        rw [Bool.not_eq_true] at hcr1
        subst hcr1
        rcases hres₂ : deactivationPass edit
            (CoreContactPlan.need_deactivation ⟨st.plan.loop, d1⟩ t) links1 d1
          with ⟨links2, d2, tr2, cr2⟩
        simp only [hres₂] at h
        split at h
        case _ => cases h
        case _ hcr2 =>
          rw [Bool.not_eq_true] at hcr2
          subst hcr2
          simp only [IterResult.ticked.injEq] at h
          exact ⟨t, links1, d1, tr1, links2, d2, tr2, hmin, hres₁, hres₂,
            h.1.symm, h.2.1.symm, h.2.2.symm⟩

theorem loopIter_crashed_destruct (argsLoop : Option Bool) (edit : Link → Except Unit Unit)
    (links : List Link) (st st' : SchedState) (links' : List Link) (tr : List TickEvent)
    (h : loopIter argsLoop edit links st = .crashed st' links' tr) :
    ∃ t links1 d1 tr1,
      minDefined (st.plan.next_activation st.curTime)
        (st.plan.next_deactivation st.curTime) = some t ∧
      ((activationPass edit (st.plan.need_activation t) links st.plan.contacts =
          (links1, d1, tr1, true) ∧
        st' = ⟨t, ⟨st.plan.loop, d1⟩⟩ ∧ links' = links1 ∧ tr = tr1) ∨
       (∃ links2 d2 tr2,
        activationPass edit (st.plan.need_activation t) links st.plan.contacts =
          (links1, d1, tr1, false) ∧
        deactivationPass edit (CoreContactPlan.need_deactivation ⟨st.plan.loop, d1⟩ t)
          links1 d1 = (links2, d2, tr2, true) ∧
        st' = ⟨t, ⟨st.plan.loop, d2⟩⟩ ∧ links' = links2 ∧ tr = tr1 ++ tr2)) := by
  unfold loopIter at h
  split at h
  · split at h <;> cases h
  · split at h
    case _ => cases h
    case _ t hmin =>
      rcases hres₁ : activationPass edit (st.plan.need_activation t) links st.plan.contacts
        with ⟨links1, d1, tr1, cr1⟩
      simp only [hres₁] at h
      split at h
      case _ hcr1 =>
        subst hcr1
        simp only [IterResult.crashed.injEq] at h
        exact ⟨t, links1, d1, tr1, hmin,
          Or.inl ⟨hres₁, h.1.symm, h.2.1.symm, h.2.2.symm⟩⟩
      case _ hcr1 =>
        rw [Bool.not_eq_true] at hcr1
        subst hcr1
        rcases hres₂ : deactivationPass edit
            (CoreContactPlan.need_deactivation ⟨st.plan.loop, d1⟩ t) links1 d1
          with ⟨links2, d2, tr2, cr2⟩
        simp only [hres₂] at h
        split at h
        case _ hcr2 =>
          subst hcr2
          simp only [IterResult.crashed.injEq] at h
          exact ⟨t, links1, d1, tr1, hmin,
            Or.inr ⟨links2, d2, tr2, hres₁, hres₂, h.1.symm, h.2.1.symm, h.2.2.symm⟩⟩
        case _ => cases h

theorem pass1_lifecycle (edit : Link → Except Unit Unit) (cp : CoreContactPlan)
    (t : Int) (links links1 : List Link) (d1 : ContactDict) (tr1 : List TickEvent)
    (cr1 : Bool) (hnd : oidsNodup cp.contacts)
    (hact : activationPass edit (cp.need_activation t) links cp.contacts =
      (links1, d1, tr1, cr1)) :
    ∀ k, LifecycleStep (dictGet cp.contacts k) (dictGet d1 k) tr1 k.oid := by
  intro k
  rcases activationPass_dict edit _ links cp.contacts links1 d1 tr1 cr1 hact
      (need_activation_pre hnd) (need_activation_oid_nodup hnd t) k with hh | ⟨ha, hb, hc⟩
  · exact Or.inl hh
  · exact Or.inr (Or.inl ⟨ha, hb⟩)

theorem passes_lifecycle (edit : Link → Except Unit Unit) (cp : CoreContactPlan)
    (t : Int) (links links1 links2 : List Link) (d1 d2 : ContactDict)
    (tr1 tr2 : List TickEvent) (cr2 : Bool) (hnd : oidsNodup cp.contacts)
    (hact : activationPass edit (cp.need_activation t) links cp.contacts =
      (links1, d1, tr1, false))
    (hdeact : deactivationPass edit
      (CoreContactPlan.need_deactivation ⟨cp.loop, d1⟩ t) links1 d1 =
      (links2, d2, tr2, cr2)) :
    ∀ k, LifecycleStep (dictGet cp.contacts k) (dictGet d2 k) (tr1 ++ tr2) k.oid := by
  intro k
  have hoid : d1.map (fun q => q.1.oid) = cp.contacts.map (fun q => q.1.oid) :=
    activationPass_oid edit _ links cp.contacts links1 d1 tr1 false hact
      need_activation_oid_mem
  have hnd1 : oidsNodup d1 := by
    unfold oidsNodup
    rw [hoid]
    exact hnd
  have hap := activationPass_dict edit _ links cp.contacts links1 d1 tr1 false hact
      (need_activation_pre hnd) (need_activation_oid_nodup hnd t) k
  have hdp := deactivationPass_dict edit _ links1 d1 links2 d2 tr2 cr2 hdeact
      (need_deactivation_live ⟨cp.loop, d1⟩ hnd1)
      (need_deactivation_oid_nodup ⟨cp.loop, d1⟩ hnd1 t) k
  rcases hap with h1 | ⟨h1a, h1b, h1c⟩ <;> rcases hdp with h2 | ⟨h2a, h2b, h2c⟩
  · exact Or.inl (h2.trans h1)
  · exact Or.inr (Or.inr (Or.inl ⟨h1 ▸ h2a, h2b⟩))
  · exact Or.inr (Or.inl ⟨h1a, h2.trans h1b⟩)
  · exact Or.inr (Or.inr (Or.inr ⟨h1a, h2b, List.mem_append_left _ h1c,
      List.mem_append_right _ h2c⟩))

/-- C7: within one pass of the loop body (a tick, whether it completes or
dies on an uncaught `edit_link` exception), every contact's state moves only
forward along PRE → LIVE → POST, by single steps; when both steps happen in
one tick the trace contains the contact's activation and its deactivation, so
`LIVE` is never skipped, no transition repeats, and nothing leaves `POST`
(only the looping branch's explicit `reset()` does that). -/
theorem C7_lifecycle_monotone (argsLoop : Option Bool) (edit : Link → Except Unit Unit)
    (links : List Link) (st st' : SchedState) (links' : List Link) (tr : List TickEvent)
    (hnd : oidsNodup st.plan.contacts)
    (h : loopIter argsLoop edit links st = .ticked st' links' tr ∨
         loopIter argsLoop edit links st = .crashed st' links' tr) :
    ∀ k : ContactObj, LifecycleStep (dictGet st.plan.contacts k)
      (dictGet st'.plan.contacts k) tr k.oid := by
  intro k
  rcases h with h | h
  · obtain ⟨t, links1, d1, tr1, links2, d2, tr2, hmin, hact, hdeact, hst, hlk, htr⟩ :=
      loopIter_ticked_destruct argsLoop edit links st st' links' tr h
    subst hst
    subst htr
    exact passes_lifecycle edit st.plan t links links1 links2 d1 d2 tr1 tr2 false
      hnd hact hdeact k
  · obtain ⟨t, links1, d1, tr1, hmin, hcase⟩ :=
      loopIter_crashed_destruct argsLoop edit links st st' links' tr h
    rcases hcase with ⟨hact, hst, hlk, htr⟩ | ⟨links2, d2, tr2, hact, hdeact, hst, hlk, htr⟩
    · subst hst
      subst htr
      exact pass1_lifecycle edit st.plan t links links1 d1 tr true hnd hact k
    · subst hst
      subst htr
      exact passes_lifecycle edit st.plan t links links1 links2 d1 d2 tr1 tr2 true
        hnd hact hdeact k

theorem C7_lifecycle_monotone_witness :
    LifecycleStep (dictGet demoPlan.contacts demoObj)
      (dictGet
        (CoreContactPlan.mk false [(demoObj, ContactState.LIVE)]).contacts demoObj)
      [TickEvent.activating 0, TickEvent.editA 0, TickEvent.activated 0] demoObj.oid :=
  C7_lifecycle_monotone none (fun _ => .ok ()) [demoLink] ⟨0, demoPlan⟩
    ⟨10, ⟨false, [(demoObj, ContactState.LIVE)]⟩⟩
    [⟨1, 2, ⟨1000000, 5, 0, 1⟩⟩]
    [TickEvent.activating 0, TickEvent.editA 0, TickEvent.activated 0]
    (by decide) (Or.inl (by decide)) demoObj

/-- C1 (amended): when a due activation's link lookup fails at the event
time, the scheduler logs the warning and skips that contact's Link Controller
call — but, contrary to the claim, it also skips the state transition: the
`continue` jumps past the state write, so after the tick the contact is still
`PRE`, not `LIVE`. -/
theorem C1_missing_link_keeps_pre (argsLoop : Option Bool)
    (edit : Link → Except Unit Unit) (links : List Link) (st st' : SchedState)
    (links' : List Link) (tr : List TickEvent) (p : ContactObj × ContactState)
    (hnd : oidsNodup st.plan.contacts)
    (h : loopIter argsLoop edit links st = .ticked st' links' tr)
    (hp : p ∈ st.plan.need_activation st'.curTime)
    (hfind : find_link links p.1.val.nodes.1 p.1.val.nodes.2 = none) :
    TickEvent.warnedA p.1.oid ∈ tr ∧ TickEvent.editA p.1.oid ∉ tr ∧
      dictGet st'.plan.contacts p.1 = some ContactState.PRE := by
  obtain ⟨t, links1, d1, tr1, links2, d2, tr2, hmin, hact, hdeact, hst, hlk, htr⟩ :=
    loopIter_ticked_destruct argsLoop edit links st st' links' tr h
  subst hst
  subst htr
  have hp' : p ∈ st.plan.need_activation t := hp
  have hfind' : find_link_idx links p.1.val.nodes.1 p.1.val.nodes.2 = none :=
    (find_link_idx_eq_none_iff links _ _).mpr hfind
  obtain ⟨hw, he1, hd1⟩ := activationPass_missing edit _ links st.plan.contacts
    links1 d1 tr1 p hact (need_activation_oid_nodup hnd t) hp' hfind'
  have hpre : dictGet st.plan.contacts p.1 = some ContactState.PRE :=
    need_activation_pre hnd p hp'
  have hd1p : dictGet d1 p.1 = some ContactState.PRE := by rw [hd1, hpre]
  have hoid : d1.map (fun q => q.1.oid) = st.plan.contacts.map (fun q => q.1.oid) :=
    activationPass_oid edit _ links st.plan.contacts links1 d1 tr1 false hact
      need_activation_oid_mem
  have hnd1 : oidsNodup d1 := by
    unfold oidsNodup
    rw [hoid]
    exact hnd
  refine ⟨List.mem_append_left _ hw, ?_, ?_⟩
  · intro hmem
    rcases List.mem_append.mp hmem with hmem | hmem
    · exact he1 hmem
    · have := deactivationPass_events edit _ links1 d1 links2 d2 tr2 false hdeact _ hmem
      simp [isDeactivationEvent] at this
  · show dictGet d2 p.1 = some ContactState.PRE
    rcases deactivationPass_dict edit _ links1 d1 links2 d2 tr2 false hdeact
        (need_deactivation_live ⟨st.plan.loop, d1⟩ hnd1)
        (need_deactivation_oid_nodup ⟨st.plan.loop, d1⟩ hnd1 t) p.1
      with hh | ⟨ha, _, _⟩
    · rw [hh, hd1p]
    · rw [hd1p] at ha
      exact absurd ha (by simp)

theorem C1_missing_link_keeps_pre_witness :
    TickEvent.warnedA (demoObj, ContactState.PRE).1.oid ∈
        [TickEvent.activating 0, TickEvent.warnedA 0] ∧
    TickEvent.editA (demoObj, ContactState.PRE).1.oid ∉
        [TickEvent.activating 0, TickEvent.warnedA 0] ∧
    dictGet (SchedState.mk 10 demoPlan).plan.contacts (demoObj, ContactState.PRE).1 =
      some ContactState.PRE :=
  C1_missing_link_keeps_pre none (fun _ => .ok ()) [] ⟨0, demoPlan⟩ ⟨10, demoPlan⟩ []
    [TickEvent.activating 0, TickEvent.warnedA 0] (demoObj, ContactState.PRE)
    (by decide) (by decide) (by decide) (by decide)

/-- C6: when a tick completes, its trace is the activation-pass events
followed by the deactivation-pass events (all same-timestamp activations are
applied before any same-timestamp deactivation); every contact due for
activation at the tick time is attempted (its print appears in the first
part, and it is either warned about or actually activated there), and every
contact already due for deactivation is attempted in the second part — all
before the iteration ends, i.e. before the scheduler can advance time
again. -/
theorem C6_tick_ordering (argsLoop : Option Bool) (edit : Link → Except Unit Unit)
    (links : List Link) (st st' : SchedState) (links' : List Link) (tr : List TickEvent)
    (h : loopIter argsLoop edit links st = .ticked st' links' tr) :
    ∃ ta td, tr = ta ++ td ∧
      (∀ e ∈ ta, isActivationEvent e = true) ∧
      (∀ e ∈ td, isDeactivationEvent e = true) ∧
      (∀ p ∈ st.plan.need_activation st'.curTime,
        TickEvent.activating p.1.oid ∈ ta ∧
          (TickEvent.warnedA p.1.oid ∈ ta ∨ TickEvent.activated p.1.oid ∈ ta)) ∧
      (∀ p ∈ st.plan.need_deactivation st'.curTime,
        TickEvent.deactivating p.1.oid ∈ td) := by
  obtain ⟨t, links1, d1, tr1, links2, d2, tr2, hmin, hact, hdeact, hst, hlk, htr⟩ :=
    loopIter_ticked_destruct argsLoop edit links st st' links' tr h
  subst hst
  subst htr
  refine ⟨tr1, tr2, rfl, ?_, ?_, ?_, ?_⟩
  · exact activationPass_events edit _ links st.plan.contacts links1 d1 tr1 false hact
  · exact deactivationPass_events edit _ links1 d1 links2 d2 tr2 false hdeact
  · intro p hp
    exact activationPass_complete edit _ links st.plan.contacts links1 d1 tr1 hact p hp
  · intro p hp
    obtain ⟨hmem, hend, hlive⟩ := mem_need_deactivation.mp
      (hp : p ∈ st.plan.need_deactivation t)
    have hmemL : (p.1, ContactState.LIVE) ∈ st.plan.contacts := by
      rw [← hlive]
      simpa using hmem
    have hmem1 : (p.1, ContactState.LIVE) ∈ d1 :=
      activationPass_live edit _ links st.plan.contacts links1 d1 tr1 false hact p.1 hmemL
    have hp2 : ((p.1, ContactState.LIVE) : ContactObj × ContactState) ∈
        CoreContactPlan.need_deactivation ⟨st.plan.loop, d1⟩ t :=
      mem_need_deactivation.mpr ⟨hmem1, hend, rfl⟩
    exact deactivationPass_complete edit _ links1 d1 links2 d2 tr2 hdeact
      (p.1, ContactState.LIVE) hp2

theorem C6_tick_ordering_witness :
    ∃ ta td,
      ([TickEvent.activating 0, TickEvent.editA 0, TickEvent.activated 0,
        TickEvent.activating 1, TickEvent.editA 1, TickEvent.activated 1] : List TickEvent)
        = ta ++ td ∧
      (∀ e ∈ ta, isActivationEvent e = true) ∧
      (∀ e ∈ td, isDeactivationEvent e = true) ∧
      (∀ p ∈ demoPlan2.need_activation 10,
        TickEvent.activating p.1.oid ∈ ta ∧
          (TickEvent.warnedA p.1.oid ∈ ta ∨ TickEvent.activated p.1.oid ∈ ta)) ∧
      (∀ p ∈ demoPlan2.need_deactivation 10,
        TickEvent.deactivating p.1.oid ∈ td) :=
  C6_tick_ordering none (fun _ => .ok ()) demoLinks2 ⟨0, demoPlan2⟩
    ⟨10, ⟨false, [(demoObj, ContactState.LIVE), (demoObjB, ContactState.LIVE)]⟩⟩
    [⟨1, 2, ⟨1000000, 5, 0, 1⟩⟩, ⟨1, 3, ⟨500000, 7, 0, 2⟩⟩]
    [TickEvent.activating 0, TickEvent.editA 0, TickEvent.activated 0,
      TickEvent.activating 1, TickEvent.editA 1, TickEvent.activated 1]
    (by decide)

/-! ### Helper lemmas: strings of the plan-file parser -/

theorem dropWhile_length_le {α : Type} (p : α → Bool) (l : List α) :
    (l.dropWhile p).length ≤ l.length := by
  induction l with
  | nil => simp
  | cons a t ih =>
    by_cases hp : p a = true
    · rw [List.dropWhile_cons, if_pos hp]
      exact le_trans ih (by simp)
    · rw [List.dropWhile_cons, if_neg hp]

theorem dropWhile_eq_self_of_length {α : Type} (p : α → Bool) (l : List α)
    (h : (l.dropWhile p).length = l.length) : l.dropWhile p = l := by
  cases l with
  | nil => rfl
  | cons a t =>
    by_cases hp : p a = true
    · exfalso
      rw [List.dropWhile_cons, if_pos hp] at h
      have := dropWhile_length_le p t
      simp at h
      omega
    · rw [List.dropWhile_cons, if_neg hp]

theorem pyStrip_eq_self_parts {r : List Char} (h : pyStrip r = r) :
    r.dropWhile pyIsSpace = r ∧ r.reverse.dropWhile pyIsSpace = r.reverse := by
  unfold pyStrip at h
  have h1 : (r.dropWhile pyIsSpace).length ≤ r.length := dropWhile_length_le _ _
  have h2 : ((r.dropWhile pyIsSpace).reverse.dropWhile pyIsSpace).length ≤
      (r.dropWhile pyIsSpace).length := by
    simpa using dropWhile_length_le pyIsSpace (r.dropWhile pyIsSpace).reverse
  have h3 : ((r.dropWhile pyIsSpace).reverse.dropWhile pyIsSpace).length = r.length := by
    have := congrArg List.length h
    simpa using this
  have ha : (r.dropWhile pyIsSpace).length = r.length := le_antisymm h1 (by omega)
  have hA : r.dropWhile pyIsSpace = r := dropWhile_eq_self_of_length _ _ ha
  refine ⟨hA, ?_⟩
  rw [hA] at h3
  exact dropWhile_eq_self_of_length _ _ (by simpa using h3)

theorem strip_pref_append (r : List Char) (hstr : pyStrip r = r) (hr0 : r ≠ []) :
    pyStrip ("a contact ".toList ++ r) = "a contact ".toList ++ r := by
  obtain ⟨hL, hT⟩ := pyStrip_eq_self_parts hstr
  obtain ⟨c, cs, hrev, hc⟩ : ∃ c cs, r.reverse = c :: cs ∧ pyIsSpace c = false := by
    cases hrevc : r.reverse with
    | nil =>
      exfalso
      exact hr0 (by simpa using congrArg List.reverse hrevc)
    | cons c cs =>
      refine ⟨c, cs, rfl, ?_⟩
      by_cases hcc : pyIsSpace c = true
      · exfalso
        rw [hrevc, List.dropWhile_cons, if_pos hcc] at hT
        have := dropWhile_length_le pyIsSpace cs
        have hlen := congrArg List.length hT
        simp at hlen
        omega
      · simpa using hcc
  have hr : r = cs.reverse ++ [c] := by
    have := congrArg List.reverse hrev
    simpa using this
  unfold pyStrip
  have hlead : ("a contact ".toList ++ r).dropWhile pyIsSpace =
      "a contact ".toList ++ r := rfl
  rw [hlead, List.reverse_append, hrev, List.cons_append, List.dropWhile_cons,
    if_neg (by simp [hc])]
  rw [hr]
  simp

theorem isPrefixOf_self_append (l t : List Char) : l.isPrefixOf (l ++ t) = true := by
  induction l with
  | nil => simp [List.isPrefixOf]
  | cons a l ih => simp [List.isPrefixOf, ih]

theorem from_string_error_of_bad (r : List Char) (hstr : pyStrip r = r) (hr0 : r ≠ [])
    (hbad : (pySplit r).length ≠ 8 ∨ parseFields (pySplit r) = none) :
    CoreContact.from_string ("a contact ".toList ++ r) = .error r := by
  obtain ⟨hL, hT⟩ := pyStrip_eq_self_parts hstr
  have hpre : (("a contact".toList).isPrefixOf ("a contact ".toList ++ r)) = true := by
    have hform : "a contact ".toList ++ r = "a contact".toList ++ (' ' :: r) := rfl
    rw [hform]
    exact isPrefixOf_self_append _ _
  have hdrop : ("a contact ".toList ++ r).drop 9 = ' ' :: r := rfl
  have hsp : pyStrip (' ' :: r) = r := by
    unfold pyStrip
    have h1 : (' ' :: r).dropWhile pyIsSpace = r.dropWhile pyIsSpace := rfl
    rw [h1, hL, hT, List.reverse_reverse]
  simp only [CoreContact.from_string]
  rw [strip_pref_append r hstr hr0, if_pos hpre, hdrop, hsp]
  rcases hbad with hlen8 | hpf
  · rw [if_pos hlen8]
  · by_cases hlen8 : (pySplit r).length ≠ 8
    · rw [if_pos hlen8]
    · rw [if_neg hlen8]
      simp only [hpf]

theorem loadGo_cons_cases (hd : List Char) (tl : List (List Char)) (lp : Bool)
    (d : ContactDict) (fresh : Nat) :
    (∃ e, loadGo (hd :: tl) lp d fresh = .error e) ∨
    (∃ lp' d' fresh', loadGo (hd :: tl) lp d fresh = loadGo tl lp' d' fresh') := by
  simp only [loadGo]
  split
  · split
    · exact Or.inr ⟨_, _, _, rfl⟩
    · exact Or.inr ⟨_, _, _, rfl⟩
  · split
    · split
      · split
        · exact Or.inl ⟨_, rfl⟩
        · exact Or.inr ⟨_, _, _, rfl⟩
      · exact Or.inr ⟨_, _, _, rfl⟩
    · exact Or.inr ⟨_, _, _, rfl⟩

theorem loadGo_error_of_mem (lines : List (List Char)) :
    ∀ (lp : Bool) (d : ContactDict) (fresh : Nat) (line : List Char)
      (restF : List (List Char)) (e : List Char),
      line ∈ lines →
      pyStrip line = line →
      pySplit line = "a".toList :: "contact".toList :: restF →
      2 < restF.length →
      CoreContact.from_string line = .error e →
      ∃ e', loadGo lines lp d fresh = .error e' := by
  induction lines with
  | nil =>
    intro lp d fresh line restF e hmem
    simp at hmem
  | cons hd tl ih =>
    intro lp d fresh line restF e hmem hstrip hsplit hlen herr
    rcases List.mem_cons.mp hmem with rfl | hmem
    · simp only [loadGo]
      rw [hstrip, hsplit]
      rw [if_neg (fun hc => by
        have h2 := hc.2
        rw [List.getD_cons_zero] at h2
        exact absurd h2 (by decide))]
      rw [if_pos ⟨by simp only [List.length_cons]; omega, by rw [List.getD_cons_zero]⟩]
      rw [if_pos (by rw [List.getD_cons_succ, List.getD_cons_zero])]
      simp only [herr]
      exact ⟨e, rfl⟩
    · rcases loadGo_cons_cases hd tl lp d fresh with ⟨e', he'⟩ | ⟨lp', d', fresh', hstep⟩
      · exact ⟨e', he'⟩
      · rw [hstep]
        exact ih lp' d' fresh' line restF e hmem hstrip hsplit hlen herr

/-- C3 (amended): malformed contact directives are fatal only once the line
dispatcher recognizes them: for any plan file containing a line
`a contact <r>` (with `<r>` whitespace-normalized) that carries more than 2
fields after the keyword, if the field count differs from 8, or any field
fails numeric parsing (`parseFields` rejects), loading fails with an error
naming an offending line; but — the correction — a contact directive with 2
or fewer fields after the keyword falls below the dispatcher's
more-than-4-tokens threshold and is silently ignored (see the
counterexample). -/
theorem C3_malformed_directive_fails (lines : List (List Char)) (r : List Char)
    (hmem : ("a contact ".toList ++ r) ∈ lines)
    (hstr : pyStrip r = r)
    (hlen : 2 < (pySplit r).length)
    (hbad : (pySplit r).length ≠ 8 ∨ parseFields (pySplit r) = none) :
    ∃ e, CoreContactPlan.load lines = .error e := by
  have hr0 : r ≠ [] := by
    intro hh
    rw [hh] at hlen
    simp [pySplit, splitAux] at hlen
  have hstrip := strip_pref_append r hstr hr0
  have hsplit : pySplit ("a contact ".toList ++ r) =
      "a".toList :: "contact".toList :: pySplit r := rfl
  have herr := from_string_error_of_bad r hstr hr0 hbad
  obtain ⟨e', hgo⟩ := loadGo_error_of_mem lines false [] 0 _ (pySplit r) r
    hmem hstrip hsplit hlen herr
  refine ⟨e', ?_⟩
  unfold CoreContactPlan.load
  rw [hgo]
  rfl

theorem C3_malformed_directive_fails_witness :
    ∃ e, CoreContactPlan.load ["a contact 10 20 1 2 1000000".toList] = .error e :=
  C3_malformed_directive_fails ["a contact 10 20 1 2 1000000".toList]
    "10 20 1 2 1000000".toList (by decide) (by decide) (by decide) (by decide)
